import Mathlib

/-!
Shallow embedding of the pharma2merge FOPH diff engine (`src/foph_diff.rs`).

Rust `f64` price amounts are modelled as `ℚ` (the claims under study concern
comparison logic and thresholds, not rounding); Rust `BTreeMap` is modelled as
an association list kept sorted in strictly ascending key order by insertion;
Rust `&str` values are Lean `String`s, with byte-level primitives (`str::len`,
byte slicing) modelled explicitly over the UTF-8 sizes of the characters.
Rust code that can panic (byte slicing off a character boundary, `unwrap` of
`None`) is modelled in `Except Unit`, with `Except.error ()` standing for the
panic.
-/

namespace FophDiff

/-- Model of Rust `(i32, i32, i32)` date tuples with the derived
lexicographic `Ord`.  Machine `i32` overflow is immaterial here: all values
come from at most four decimal digits. -/
structure DateTuple where
  y : Int
  m : Int
  d : Int
deriving Repr

/-- Lexicographic order on `DateTuple`, matching Rust's derived `Ord` on
`(i32, i32, i32)`. -/
def dtLe (a b : DateTuple) : Prop :=
  a.y < b.y ∨ (a.y = b.y ∧ (a.m < b.m ∨ (a.m = b.m ∧ a.d ≤ b.d)))

instance : DecidablePred fun p : DateTuple × DateTuple => dtLe p.1 p.2 :=
  fun _ => by unfold dtLe; infer_instance

instance (a b : DateTuple) : Decidable (dtLe a b) := by unfold dtLe; infer_instance

instance : LinearOrder DateTuple where
  le := dtLe
  le_refl a := by simp [dtLe]
  le_trans a b c hab hbc := by
    rcases a with ⟨ay, am, ad⟩; rcases b with ⟨by_, bm, bd⟩; rcases c with ⟨cy, cm, cd⟩
    simp only [dtLe] at *; omega
  le_antisymm a b hab hba := by
    rcases a with ⟨ay, am, ad⟩; rcases b with ⟨by_, bm, bd⟩
    simp only [dtLe] at *
    have : ay = by_ ∧ am = bm ∧ ad = bd := by omega
    simp [this.1, this.2.1, this.2.2]
  le_total a b := by
    rcases a with ⟨ay, am, ad⟩; rcases b with ⟨by_, bm, bd⟩
    simp only [dtLe]; omega
  decidableLE a b := inferInstanceAs (Decidable (dtLe a b))

-- ── Rust string primitives ──────────────────────────────────────────────────

/-- Model of Rust `str::len`: the UTF-8 byte length. -/
def rustStrLen (s : String) : Nat :=
  s.data.foldl (fun n c => n + c.utf8Size) 0

/-- Model of Rust `str::starts_with` for an ASCII pattern: a byte-level
prefix of ASCII bytes is exactly a character-level prefix (UTF-8 continuation
bytes are ≥ 0x80, so an ASCII byte sequence can only match whole characters). -/
def rustStartsWith (s pat : String) : Bool :=
  pat.data.isPrefixOf s.data

/-- Model of Rust `str::contains` for an ASCII pattern, as character-level
infix search (byte-level and character-level agree for ASCII patterns). -/
def rustContains (s pat : String) : Prop :=
  pat.data <:+: s.data

instance (s pat : String) : Decidable (rustContains s pat) :=
  List.decidableInfix pat.data s.data

-- ── Ordered association maps (model of Rust BTreeMap) ───────────────────────

/-- Strict lexicographic comparison of character lists by code point.  For
UTF-8 encoded strings, byte-wise lexicographic order (Rust's `Ord` on
`String`) coincides with code-point lexicographic order. -/
def charListLt : List Char → List Char → Bool
  | [], [] => false
  | [], _ :: _ => true
  | _ :: _, [] => false
  | a :: as, b :: bs => decide (a < b) || (decide (a = b) && charListLt as bs)

/-- The model of Rust's `Ord` on `String` (byte order = code-point order). -/
def strLtB (a b : String) : Bool := charListLt a.data b.data

/-- The strict order on `DateTuple` as a Boolean, for map insertion. -/
def dtLtB (a b : DateTuple) : Bool := decide (a < b)

/-- Insert into an association list kept sorted by strictly ascending key
(per the comparator `lt`), replacing the value on an existing key: the
model of `BTreeMap::insert`. -/
def omInsert {α β : Type} (lt : α → α → Bool) [DecidableEq α] (k : α) (v : β) :
    List (α × β) → List (α × β)
  | [] => [(k, v)]
  | (k', v') :: rest =>
    if lt k k' then (k, v) :: (k', v') :: rest
    else if k = k' then (k, v) :: rest
    else (k', v') :: omInsert lt k v rest

/-- First-match lookup: the model of `BTreeMap::get` (keys are unique in any
map built by `omInsert`). -/
def omFind {α β : Type} [DecidableEq α] (k : α) : List (α × β) → Option β
  | [] => none
  | (k', v') :: rest => if k' = k then some v' else omFind k rest

/-- Lookup with default, modelling `map.get(k).unwrap_or(&default)` and
`entry(k).or_default()` reads. -/
def omFindD {α β : Type} [DecidableEq α] (k : α) (l : List (α × β)) (dflt : β) : β :=
  (omFind k l).getD dflt

/-- Membership of a key, modelling `BTreeMap::contains_key`. -/
def omContains {α β : Type} [DecidableEq α] (k : α) (l : List (α × β)) : Bool :=
  (omFind k l).isSome

theorem omFind_insert_self {α β : Type} (lt : α → α → Bool) [DecidableEq α]
    (k : α) (v : β) (l : List (α × β)) :
    omFind k (omInsert lt k v l) = some v := by
  induction l with
  | nil => simp [omInsert, omFind]
  | cons p rest ih =>
    obtain ⟨k', v'⟩ := p
    by_cases h1 : lt k k' = true
    · simp [omInsert, h1, omFind]
    · by_cases h2 : k = k'
      · subst h2
        simp [omInsert, h1, omFind]
      · have hne : k' ≠ k := fun h => h2 h.symm
        simp [omInsert, h1, h2, omFind, hne, ih]

theorem omFind_insert_ne {α β : Type} (lt : α → α → Bool) [DecidableEq α]
    (k a : α) (v : β) (l : List (α × β)) (hne : a ≠ k) :
    omFind a (omInsert lt k v l) = omFind a l := by
  induction l with
  | nil => simp [omInsert, omFind, Ne.symm hne]
  | cons p rest ih =>
    obtain ⟨k', v'⟩ := p
    by_cases h1 : lt k k' = true
    · simp [omInsert, h1, omFind, Ne.symm hne]
    · by_cases h2 : k = k'
      · subst h2
        simp [omInsert, h1, omFind, Ne.symm hne]
      · simp only [omInsert, if_neg h1, if_neg h2, omFind]
        by_cases h3 : k' = a
        · simp [h3]
        · simp [h3, ih]

theorem mem_keys_omInsert {α β : Type} (lt : α → α → Bool) [DecidableEq α]
    (k a : α) (v : β) (l : List (α × β)) :
    a ∈ (omInsert lt k v l).map Prod.fst ↔ a = k ∨ a ∈ l.map Prod.fst := by
  induction l with
  | nil => simp [omInsert]
  | cons p rest ih =>
    obtain ⟨k', v'⟩ := p
    by_cases h1 : lt k k' = true
    · simp [omInsert, h1]
    · by_cases h2 : k = k'
      · subst h2; simp [omInsert, h1]
      · simp [omInsert, h1, h2, ih]; tauto

theorem pairwise_keys_omInsert {α β : Type} [LinearOrder α]
    (lt : α → α → Bool) (hlt : ∀ a b, lt a b = true ↔ a < b) (k : α) (v : β)
    (l : List (α × β)) (h : (l.map Prod.fst).Pairwise (· < ·)) :
    ((omInsert lt k v l).map Prod.fst).Pairwise (· < ·) := by
  induction l with
  | nil => simp [omInsert]
  | cons p rest ih =>
    obtain ⟨k', v'⟩ := p
    simp only [List.map_cons, List.pairwise_cons] at h
    by_cases h1 : lt k k' = true
    · simp only [omInsert, if_pos h1, List.map_cons]
      refine List.Pairwise.cons ?_ (List.Pairwise.cons h.1 h.2)
      intro b hb
      simp only [List.map_cons, List.mem_cons] at hb
      rcases hb with hb | hb
      · rw [hb]; exact (hlt k k').mp h1
      · exact lt_trans ((hlt k k').mp h1) (h.1 b hb)
    · by_cases h2 : k = k'
      · subst h2
        simp only [omInsert, if_neg h1, if_pos rfl, List.map_cons]
        exact List.Pairwise.cons h.1 h.2
      · simp only [omInsert, if_neg h1, if_neg h2, List.map_cons]
        refine List.Pairwise.cons ?_ (ih h.2)
        intro b hb
        simp only [List.map_cons] at hb
        rw [mem_keys_omInsert] at hb
        rcases hb with hb | hb
        · rw [hb]
          have hnk : ¬ k < k' := fun hc => h1 ((hlt k k').mpr hc)
          exact lt_of_le_of_ne (not_lt.mp hnk) (Ne.symm h2)
        · exact h.1 b hb

-- ── Model of the `Except` for-loop folds ────────────────────────────────────

/-- Sequential fold in `Except`, modelling an imperative `for` loop whose
body may panic: the first `error` aborts the whole loop. -/
def foldE {σ α ε : Type} (f : σ → α → Except ε σ) : σ → List α → Except ε σ
  | s, [] => .ok s
  | s, a :: l =>
    match f s a with
    | .error e => .error e
    | .ok s' => foldE f s' l

instance {ε α : Type} [DecidableEq ε] [DecidableEq α] : DecidableEq (Except ε α) :=
  fun x y =>
    match x, y with
    | .error e, .error f =>
      if h : e = f then .isTrue (by rw [h]) else .isFalse (fun hc => h (by injection hc))
    | .ok a, .ok b =>
      if h : a = b then .isTrue (by rw [h]) else .isFalse (fun hc => h (by injection hc))
    | .error _, .ok _ => .isFalse (fun hc => Except.noConfusion hc)
    | .ok _, .error _ => .isFalse (fun hc => Except.noConfusion hc)

theorem foldE_nil {σ α ε : Type} (f : σ → α → Except ε σ) (s : σ) :
    foldE f s [] = .ok s := rfl

theorem foldE_cons {σ α ε : Type} (f : σ → α → Except ε σ) (s : σ) (a : α)
    (l : List α) :
    foldE f s (a :: l) =
      match f s a with
      | .error e => .error e
      | .ok s' => foldE f s' l := rfl

-- ── Byte slicing of UTF-8 strings (model of Rust `&str[a..b]`) ──────────────

/-- Drop exactly `n` UTF-8 bytes from the front of a character list; `error`
models the panic Rust raises when the byte index is not a character
boundary (or exceeds the length). -/
def dropBytes : List Char → Nat → Except Unit (List Char)
  | l, 0 => .ok l
  | [], _ + 1 => .error ()
  | c :: cs, n + 1 =>
    if c.utf8Size ≤ n + 1 then dropBytes cs (n + 1 - c.utf8Size) else .error ()

/-- Take exactly `n` UTF-8 bytes from the front of a character list; `error`
models the boundary panic. -/
def takeBytes : List Char → Nat → Except Unit (List Char)
  | _, 0 => .ok []
  | [], _ + 1 => .error ()
  | c :: cs, n + 1 =>
    if c.utf8Size ≤ n + 1 then
      (takeBytes cs (n + 1 - c.utf8Size)).map (c :: ·)
    else .error ()

/-- Model of the Rust byte-range slice `&d[s..e]` (with `s ≤ e`): panics
(`error`) unless both `s` and `e` are character boundaries within the
string. -/
def sliceBytes (d : List Char) (s e : Nat) : Except Unit (List Char) :=
  match dropBytes d s with
  | .error () => .error ()
  | .ok rest => takeBytes rest (e - s)

-- ── Integer parsing (model of Rust `str::parse::<i32>`) ─────────────────────

/-- All-decimal-digit parse of a nonempty character list. -/
def parseDigits : List Char → Option Nat
  | [] => none
  | l =>
    if l.all Char.isDigit then
      some (l.foldl (fun n c => n * 10 + (c.toNat - 48)) 0)
    else none

/-- Model of Rust `str::parse::<i32>`: optional sign, then at least one
decimal digit and nothing else.  `i32` overflow is not modelled: every call
site passes at most 4 characters, so the parsed magnitude is below 10000. -/
def parseI32 (s : List Char) : Option Int :=
  match s with
  | '+' :: rest => (parseDigits rest).map Int.ofNat
  | '-' :: rest => (parseDigits rest).map (fun n => -(Int.ofNat n))
  | _ => (parseDigits s).map Int.ofNat

-- ── `parse_date_str` ────────────────────────────────────────────────────────

/-- Model of `parse_date_str` (`foph_diff.rs:154`).  The Rust function
byte-slices `d[0..4]`, `d[5..7]`, `d[8..10]` in that order; each slice
panics (`Except.error`) when its end points are not character boundaries.
On success it returns the parsed `(year, month, day)` when all three slices
parse as integers, `none` otherwise, and `none` without slicing when the
byte length is below 10. -/
def parse_date_str (d : List Char) : Except Unit (Option DateTuple) :=
  if (d.foldl (fun n c => n + c.utf8Size) 0) < 10 then .ok none
  else
    match sliceBytes d 0 4 with
    | .error () => .error ()
    | .ok s1 =>
      match parseI32 s1 with
      | none => .ok none
      | some y =>
        match sliceBytes d 5 7 with
        | .error () => .error ()
        | .ok s2 =>
          match parseI32 s2 with
          | none => .ok none
          | some m =>
            match sliceBytes d 8 10 with
            | .error () => .error ()
            | .ok s3 =>
              match parseI32 s3 with
              | none => .ok none
              | some day => .ok (some ⟨y, m, day⟩)

-- ── JSON model (serde_json::Value) ──────────────────────────────────────────

/-- Model of `serde_json::Value`; numbers are `ℚ` (standing for `f64`),
objects are field lists accessed by first match. -/
inductive Json where
  | null
  | bool (b : Bool)
  | num (q : ℚ)
  | str (s : String)
  | arr (elems : List Json)
  | obj (fields : List (String × Json))

namespace Json

/-- Model of `Value::get(key)`. -/
def get? : Json → String → Option Json
  | .obj fields, k => (fields.find? (fun f => f.1 = k)).map Prod.snd
  | _, _ => none

/-- Model of `Value::as_str`. -/
def asStr : Json → Option String
  | .str s => some s
  | _ => none

/-- Model of `Value::as_array`. -/
def asArr : Json → Option (List Json)
  | .arr elems => some elems
  | _ => none

/-- Model of `Value::as_f64`. -/
def asNum : Json → Option ℚ
  | .num q => some q
  | _ => none

end Json

-- ── `get_effective_price` ───────────────────────────────────────────────────

/-- The loop body of `get_effective_price`: the source condition
`dt <= current && (best.is_none() || dt > best.unwrap())`, split on the
`best` option. -/
def gepStep (current : DateTuple) (st : Option DateTuple × ℚ)
    (p : DateTuple × ℚ) : Option DateTuple × ℚ :=
  match st with
  | (none, _) => if p.1 ≤ current then (some p.1, p.2) else st
  | (some b, _) => if p.1 ≤ current ∧ b < p.1 then (some p.1, p.2) else st

/-- Model of `get_effective_price` (`foph_diff.rs:191`): iterate the price
series keeping the entry with the greatest date that is not after `current`;
`0` when no entry qualifies. -/
def get_effective_price (prices : List (DateTuple × ℚ)) (current : DateTuple) : ℚ :=
  (prices.foldl (gepStep current) ((none : Option DateTuple), (0 : ℚ))).2

-- ── Package extraction (`process_bundles`, `foph_diff.rs:203`) ──────────────

/-- Model of the Rust `PackageInfo` struct. -/
structure PackageInfo where
  name : String
  retail_price : ℚ
  exfactory_price : ℚ
  has_sl_entry : Bool
deriving DecidableEq, Repr

/-- `PackageMap = BTreeMap<String, PackageInfo>`. -/
abbrev PackageMap := List (String × PackageInfo)

/-- Map from price type ("retail" / "exfactory") to a date-keyed price
series: `BTreeMap<String, BTreeMap<DateTuple, f64>>`. -/
abbrev PriceByType := List (String × List (DateTuple × ℚ))

/-- `bundle.get("entry").and_then(as_array)`. -/
def bundleEntries (bundle : Json) : Option (List Json) :=
  (bundle.get? "entry").bind Json.asArr

/-- The resource index `"{ResourceType}/{id}" -> resource` built per bundle
(`foph_diff.rs:213`): resources missing either half of the key are skipped. -/
def buildResources (entries : List Json) : List (String × Json) :=
  entries.foldl
    (fun resources entry =>
      match entry.get? "resource" with
      | none => resources
      | some res =>
        let rtype := ((res.get? "resourceType").bind Json.asStr).getD ""
        let id := ((res.get? "id").bind Json.asStr).getD ""
        if rtype ≠ "" ∧ id ≠ "" then omInsert strLtB (rtype ++ "/" ++ id) res resources
        else resources)
    []

/-- The `PackagedProductDefinition` entries of the resource index, in map
(ascending-key) order (`foph_diff.rs:227`). -/
def ppdList (resources : List (String × Json)) : List (String × Json) :=
  resources.filter
    (fun kr => ((kr.2.get? "resourceType").bind Json.asStr) = some "PackagedProductDefinition")

/-- GTIN extraction (`foph_diff.rs:236`): the first packaging identifier
whose system is the canonical URI and whose value has byte length 13 and
byte prefix "7680". -/
def extractGtin (res : Json) : Option String :=
  (((res.get? "packaging").bind (·.get? "identifier")).bind Json.asArr).bind
    (fun ids =>
      ids.findSome? (fun id =>
        let system := ((id.get? "system").bind Json.asStr).getD ""
        let value := ((id.get? "value").bind Json.asStr).getD ""
        if system = "urn:oid:2.51.1.1" ∧ rustStrLen value = 13 ∧
            rustStartsWith value "7680" then
          some value
        else none))

/-- Name extraction (`foph_diff.rs:257`): description, else rendered text
div, else a constant placeholder. -/
def extractName (res : Json) : String :=
  (((res.get? "description").bind Json.asStr).orElse
    (fun _ => ((res.get? "text").bind (·.get? "div")).bind Json.asStr)).getD
    "Unknown Product"

/-- Whether an authorization carries the reimbursement-list type code
(`foph_diff.rs:272`). -/
def authIsSl (auth : Json) : Bool :=
  match ((auth.get? "type").bind (·.get? "coding")).bind Json.asArr with
  | none => false
  | some codings => codings.any (fun c => ((c.get? "code").bind Json.asStr) = some "756000002003")

/-- The subject reference of an authorization (`foph_diff.rs:283`),
defaulting to the empty string. -/
def authSubjectRef (auth : Json) : String :=
  ((((auth.get? "subject").bind Json.asArr).bind List.head?).bind
    (fun s => (s.get? "reference").bind Json.asStr)).getD ""

/-- Scan the sub-extensions of one price extension (`foph_diff.rs:314`),
assigning `type_code`, `value` and `change_date` as matching sub-urls are
encountered (later occurrences overwrite). -/
def subExtScan (sub_exts : List Json) : String × ℚ × String :=
  sub_exts.foldl
    (fun st sub =>
      let (type_code, value, change_date) := st
      match ((sub.get? "url").bind Json.asStr).getD "" with
      | "type" =>
        (((((((sub.get? "valueCodeableConcept").bind (·.get? "coding")).bind
            Json.asArr).bind List.head?).bind (·.get? "code")).bind
            Json.asStr).getD "",
          value, change_date)
      | "value" =>
        (type_code,
          (((sub.get? "valueMoney").bind (·.get? "value")).bind Json.asNum).getD 0,
          change_date)
      | "changeDate" =>
        (type_code, value, (((sub.get? "valueDate").bind Json.asStr).getD ""))
      | _ => st)
    ("", 0, "")

/-- Process one extension of an authorization (`foph_diff.rs:301`): a
price-bearing extension (url containing "productPrice") with a known type
code, positive value and nonempty parseable change date inserts a sample
into the per-type series.  `parse_date_str` may panic (`error`). -/
def processExt (pbt : PriceByType) (ext : Json) : Except Unit PriceByType :=
  if ¬ rustContains (((ext.get? "url").bind Json.asStr).getD "") "productPrice" then .ok pbt
  else
    match (ext.get? "extension").bind Json.asArr with
    | none => .ok pbt
    | some sub_exts =>
      let (type_code, value, change_date) := subExtScan sub_exts
      match (match type_code with
             | "756002005001" => some "retail"
             | "756002005002" => some "exfactory"
             | _ => none) with
      | none => .ok pbt
      | some price_type =>
        if value > 0 ∧ change_date ≠ "" then
          match parse_date_str change_date.data with
          | .error () => .error ()
          | .ok none => .ok pbt
          | .ok (some dt) =>
            .ok (omInsert strLtB price_type (omInsert dtLtB dt value (omFindD price_type pbt [])) pbt)
        else .ok pbt

/-- Process one resource of the bundle in the authorization scan
(`foph_diff.rs:266`): only `RegulatedAuthorization` resources with the SL
type code and a subject reference equal to the product's key contribute;
they set the SL flag and are scanned for price extensions. -/
def processAuth (ppd_key : String) (st : PriceByType × Bool) (auth : Json) :
    Except Unit (PriceByType × Bool) :=
  if ((auth.get? "resourceType").bind Json.asStr) ≠ some "RegulatedAuthorization" then .ok st
  else if ¬ authIsSl auth then .ok st
  else if authSubjectRef auth ≠ ppd_key then .ok st
  else
    match (auth.get? "extension").bind Json.asArr with
    | none => .ok (st.1, true)
    | some extensions =>
      match foldE processExt st.1 extensions with
      | .error () => .error ()
      | .ok pbt => .ok (pbt, true)

/-- The authorization scan for one product: fold `processAuth` over every
resource of the bundle, in map order. -/
def authScan (resources : List (String × Json)) (ppd_key : String) :
    Except Unit (PriceByType × Bool) :=
  foldE (fun st kr => processAuth ppd_key st kr.2) ([], false) resources

/-- The record one `PackagedProductDefinition` contributes
(`foph_diff.rs:232`–`377`): `none` when it has no qualifying GTIN or fails
the retention condition (no positive resolved price and no SL entry). -/
def ppdRecord (current_dt : DateTuple) (resources : List (String × Json))
    (kr : String × Json) : Except Unit (Option (String × PackageInfo)) :=
  match extractGtin kr.2 with
  | none => .ok none
  | some gtin =>
    let name := extractName kr.2
    match authScan resources kr.1 with
    | .error () => .error ()
    | .ok (price_by_type, has_sl_entry) =>
      let retail := get_effective_price (omFindD "retail" price_by_type []) current_dt
      let exfactory := get_effective_price (omFindD "exfactory" price_by_type []) current_dt
      if retail > 0 ∨ exfactory > 0 ∨ has_sl_entry then
        .ok (some (gtin, ⟨name, retail, exfactory, has_sl_entry⟩))
      else
        .ok none

/-- Fold one product into the package map: insert its record when retained. -/
def processPpd (current_dt : DateTuple) (resources : List (String × Json))
    (packages : PackageMap) (kr : String × Json) : Except Unit PackageMap :=
  match ppdRecord current_dt resources kr with
  | .error () => .error ()
  | .ok none => .ok packages
  | .ok (some (gtin, info)) => .ok (omInsert strLtB gtin info packages)

/-- Process one bundle (`foph_diff.rs:206`): bundles without an entry array
are skipped; otherwise every product of the bundle is folded into the map. -/
def processBundle (current_dt : DateTuple) (packages : PackageMap)
    (bundle : Json) : Except Unit PackageMap :=
  match bundleEntries bundle with
  | none => .ok packages
  | some entries =>
    let resources := buildResources entries
    foldE (processPpd current_dt resources) packages (ppdList resources)

/-- Model of `process_bundles` (`foph_diff.rs:203`): sequential fold over
the bundle slice, starting from the empty map.  `error` models the panic
raised by `parse_date_str` on a change date whose bytes 4/5/7/8/10 cut a
character. -/
def process_bundles (bundles : List Json) (current_dt : DateTuple) :
    Except Unit PackageMap :=
  foldE (processBundle current_dt) [] bundles

-- ── The sequence of retained records, in processing order ───────────────────

/-- The resource index of a bundle (empty when the bundle has no entry
array). -/
def bundleResources (bundle : Json) : List (String × Json) :=
  match bundleEntries bundle with
  | none => []
  | some entries => buildResources entries

/-- The products of a bundle, in processing order. -/
def ppdCandidates (bundle : Json) : List (String × Json) :=
  ppdList (bundleResources bundle)

/-- One step of accumulating retained records. -/
def recStep (current_dt : DateTuple) (resources : List (String × Json))
    (acc : List (String × PackageInfo)) (kr : String × Json) :
    Except Unit (List (String × PackageInfo)) :=
  match ppdRecord current_dt resources kr with
  | .error () => .error ()
  | .ok none => .ok acc
  | .ok (some p) => .ok (acc ++ [p])

/-- The retained `(gtin, info)` records contributed by one bundle, in
processing order. -/
def bundleInserts (current_dt : DateTuple) (bundle : Json) :
    Except Unit (List (String × PackageInfo)) :=
  match bundleEntries bundle with
  | none => .ok []
  | some entries =>
    let resources := buildResources entries
    foldE (recStep current_dt resources) [] (ppdList resources)

/-- One step of concatenating per-bundle record lists. -/
def allStep (current_dt : DateTuple) (acc : List (String × PackageInfo))
    (bundle : Json) : Except Unit (List (String × PackageInfo)) :=
  match bundleInserts current_dt bundle with
  | .error () => .error ()
  | .ok l => .ok (acc ++ l)

/-- All retained records of a bundle sequence, in processing order: the
package map is exactly the left fold of `omInsert` over this list. -/
def allInserts (bundles : List Json) (current_dt : DateTuple) :
    Except Unit (List (String × PackageInfo)) :=
  foldE (allStep current_dt) [] bundles

/-- One map-insertion step: the body of the last-write-wins fold. -/
def insStep (acc : PackageMap) (p : String × PackageInfo) : PackageMap :=
  omInsert strLtB p.1 p.2 acc

-- ── `extract_date_from_bundles` (`foph_diff.rs:162`) ────────────────────────

/-- The timestamp of a bundle: top-level `timestamp`, else
`meta.lastUpdated`. -/
def bundleTimestamp (bundle : Json) : Option String :=
  ((bundle.get? "timestamp").bind Json.asStr).orElse
    (fun _ => ((bundle.get? "meta").bind (·.get? "lastUpdated")).bind Json.asStr)

/-- `*date_counts.entry(dt).or_default() += 1`. -/
def bumpCount (dt : DateTuple) (counts : List (DateTuple × Nat)) :
    List (DateTuple × Nat) :=
  omInsert dtLtB dt (omFindD dt counts 0 + 1) counts

/-- The tally step for one bundle: parse its timestamp (which may panic)
and bump the count of the parsed date. -/
def tallyStep (counts : List (DateTuple × Nat)) (bundle : Json) :
    Except Unit (List (DateTuple × Nat)) :=
  match bundleTimestamp bundle with
  | none => .ok counts
  | some ts =>
    match parse_date_str ts.data with
    | .error () => .error ()
    | .ok none => .ok counts
    | .ok (some dt) => .ok (bumpCount dt counts)

/-- The per-date tally of bundle timestamps, in ascending date order;
`error` models the `parse_date_str` panic on a boundary-cutting timestamp. -/
def tallyDates (bundles : List Json) : Except Unit (List (DateTuple × Nat)) :=
  foldE tallyStep [] bundles

/-- One step of `Iterator::max_by_key`: keeps the later element on equal
counts. -/
def maxStep (best : Option (DateTuple × Nat)) (x : DateTuple × Nat) :
    Option (DateTuple × Nat) :=
  match best with
  | none => some x
  | some b => if b.2 ≤ x.2 then some x else some b

/-- Model of `Iterator::max_by_key` on the ascending tally: keeps the later
element on equal counts, hence the greatest date among the tied maxima. -/
def maxByCount (l : List (DateTuple × Nat)) : Option (DateTuple × Nat) :=
  l.foldl maxStep none

/-- Model of `extract_date_from_bundles` (`foph_diff.rs:162`): the fallback
when no timestamp parses, otherwise the most frequent date (the `.unwrap()`
on an empty maximum is modelled as a panic, and proved unreachable). -/
def extract_date_from_bundles (bundles : List Json) (fallback : DateTuple) :
    Except Unit DateTuple :=
  match tallyDates bundles with
  | .error () => .error ()
  | .ok date_counts =>
    if date_counts.isEmpty then .ok fallback
    else
      match maxByCount date_counts with
      | none => .error ()
      | some most_common => .ok most_common.1

-- ── `read_foph_bundles` (`foph_diff.rs:51`) ─────────────────────────────────

/-- `val.get("resourceType").and_then(as_str) == Some("Bundle")`. -/
def isBundleVal (v : Json) : Bool :=
  ((v.get? "resourceType").bind Json.asStr) = some "Bundle"

/-- Model of Rust `str::lines`: split on newline, drop the optional final
empty piece, strip one trailing carriage return per line. -/
def rustLines (content : List Char) : List (List Char) :=
  let pieces := content.splitOn '\n'
  let pieces := if pieces.getLast? = some [] then pieces.dropLast else pieces
  pieces.map (fun l => if l.getLast? = some '\r' then l.dropLast else l)

/-- Model of Rust `str::trim`. -/
def rustTrim (l : List Char) : List Char :=
  ((l.dropWhile Char.isWhitespace).reverse.dropWhile Char.isWhitespace).reverse

/-- The primary NDJSON pass (`foph_diff.rs:61`): parse each nonempty
trimmed line with the JSON parser `P`, keep the values that are bundles. -/
def linePass (P : List Char → Option Json) (content : List Char) : List Json :=
  (rustLines content).foldl
    (fun bundles line =>
      let line := rustTrim line
      if line.isEmpty then bundles
      else
        match P line with
        | some val => if isBundleVal val then bundles ++ [val] else bundles
        | none => bundles)
    []

/-- Push a character onto the open span, when one is open. -/
def pushSpan (span : Option (List Char)) (c : Char) : Option (List Char) :=
  span.map (fun sp => sp ++ [c])

/-- The character scanner of the fallback pass (`foph_diff.rs:82`): tracks
brace depth (signed, as the Rust `i32`), string-literal state and escape
state; a top-level object span runs from the `{` seen at depth 0 to the `}`
returning to depth 0 and is parsed independently. -/
def bracePassGo (P : List Char → Option Json) :
    List Char → Int → Bool → Bool → Option (List Char) → List Json → List Json
  | [], _, _, _, _, acc => acc
  | c :: rest, depth, inString, escape, span, acc =>
    if escape then
      bracePassGo P rest depth inString false (pushSpan span c) acc
    else if inString then
      if c = '\\' then bracePassGo P rest depth true true (pushSpan span c) acc
      else if c = '"' then bracePassGo P rest depth false false (pushSpan span c) acc
      else bracePassGo P rest depth true false (pushSpan span c) acc
    else if c = '"' then
      bracePassGo P rest depth true false (pushSpan span c) acc
    else if c = '{' then
      if depth = 0 then bracePassGo P rest (depth + 1) false false (some [c]) acc
      else bracePassGo P rest (depth + 1) false false (pushSpan span c) acc
    else if c = '}' then
      if depth - 1 = 0 then
        match span with
        | some sp =>
          let acc :=
            match P (sp ++ [c]) with
            | some val => if isBundleVal val then acc ++ [val] else acc
            | none => acc
          bracePassGo P rest (depth - 1) false false none acc
        | none => bracePassGo P rest (depth - 1) false false none acc
      else bracePassGo P rest (depth - 1) false false (pushSpan span c) acc
    else
      bracePassGo P rest depth false false (pushSpan span c) acc

/-- The fallback pass (`foph_diff.rs:75`): strip line breaks, then scan for
top-level object spans and keep those that parse as bundles. -/
def bracePass (P : List Char → Option Json) (content : List Char) : List Json :=
  bracePassGo P (content.filter (fun c => c ≠ '\n' ∧ c ≠ '\r')) 0 false false none []

/-- Model of `read_foph_bundles` (`foph_diff.rs:51`), parameterized by the
JSON parser `P` (standing for `serde_json::from_str`): the line pass, then —
only when it yields nothing — the brace-scanning fallback; a fatal error
when both yield nothing.  (The GTIN counting at `foph_diff.rs:120`–`145`
only feeds a log line and contributes nothing to the result.) -/
def read_foph_bundles (P : List Char → Option Json) (content : List Char) :
    Except String (List Json) :=
  let bundles := linePass P content
  let bundles := if bundles.isEmpty then bracePass P content else bundles
  if bundles.isEmpty then .error "No valid FHIR Bundles" else .ok bundles

-- ── Diff engine (`run_foph_diff`, `foph_diff.rs:472`–`600`) ─────────────────

/- The numeric flag codes (`foph_diff.rs:15`). -/
namespace numeric_flags

def NEW : Nat := 1
def SL_ENTRY_DELETE : Nat := 2
def NAME_BASE : Nat := 3
def SL_ENTRY : Nat := 10
def PRICE : Nat := 11
def PRICE_RISE : Nat := 13
def DELETE : Nat := 14
def PRICE_CUT : Nat := 15
def NOT_SPECIFIED : Nat := 16

end numeric_flags

/-- One change record of the diff output: the union of the fields the
`json!` literals of the nine categories carry (`ptype` models the `"type"`
field; absent fields stay `none`, a `none` price models JSON `null`). -/
structure DiffRecord where
  gtin : String
  name : String
  flags : List Nat
  ptype : Option String := none
  old_price : Option ℚ := none
  new_price : Option ℚ := none
  difference : Option ℚ := none
  old_name : Option String := none
  new_name : Option String := none
  retail_price : Option ℚ := none
  exfactory_price : Option ℚ := none
deriving DecidableEq, Repr

/-- Category `new` (`foph_diff.rs:475`): gtins of the new map absent from
the old map. -/
def new_packages (old_pkg new_pkg : PackageMap) : List DiffRecord :=
  (new_pkg.filter (fun p => !(omContains p.1 old_pkg))).map
    (fun p =>
      { gtin := p.1, name := p.2.name, flags := [numeric_flags.NEW],
        retail_price := if p.2.retail_price > (0 : ℚ) then some p.2.retail_price else none,
        exfactory_price := if p.2.exfactory_price > (0 : ℚ) then some p.2.exfactory_price else none })

/-- Category `del` (`foph_diff.rs:487`): gtins of the old map absent from
the new map. -/
def package_deletions (old_pkg new_pkg : PackageMap) : List DiffRecord :=
  (old_pkg.filter (fun p => !(omContains p.1 new_pkg))).map
    (fun p =>
      { gtin := p.1, name := p.2.name, flags := [numeric_flags.DELETE],
        retail_price := if p.2.retail_price > (0 : ℚ) then some p.2.retail_price else none,
        exfactory_price := if p.2.exfactory_price > (0 : ℚ) then some p.2.exfactory_price else none })

/-- Category `sl_entry` (`foph_diff.rs:499`): gtins in both maps whose SL
flag went false → true. -/
def sl_entry_additions (old_pkg new_pkg : PackageMap) : List DiffRecord :=
  new_pkg.filterMap
    (fun p =>
      (omFind p.1 old_pkg).bind (fun old_info =>
        if ¬ old_info.has_sl_entry ∧ p.2.has_sl_entry then
          some { gtin := p.1, name := p.2.name, flags := [numeric_flags.SL_ENTRY] }
        else none))

/-- Category `sl_entry_delete` (`foph_diff.rs:516`): gtins in both maps
whose SL flag went true → false. -/
def sl_entry_deletions (old_pkg new_pkg : PackageMap) : List DiffRecord :=
  new_pkg.filterMap
    (fun p =>
      (omFind p.1 old_pkg).bind (fun old_info =>
        if old_info.has_sl_entry ∧ ¬ p.2.has_sl_entry then
          some { gtin := p.1, name := p.2.name, flags := [numeric_flags.SL_ENTRY_DELETE] }
        else none))

/-- Category `name_base` (`foph_diff.rs:533`): gtins in both maps with
unequal names. -/
def name_changes (old_pkg new_pkg : PackageMap) : List DiffRecord :=
  new_pkg.filterMap
    (fun p =>
      (omFind p.1 old_pkg).bind (fun old_info =>
        if old_info.name ≠ p.2.name then
          some { gtin := p.1, name := p.2.name, flags := [numeric_flags.NAME_BASE],
                 old_name := some old_info.name, new_name := some p.2.name }
        else none))

/-- The loop body of the price comparison (`foph_diff.rs:560`): a record is
appended whenever the absolute delta exceeds the `0.001` epsilon (the `f64`
literal is the exact `1/1000` here). -/
def priceChangeStep (gtin name : String) (changes : List DiffRecord)
    (t : String × ℚ × ℚ) : List DiffRecord :=
  let (pt, old_p, new_p) := t
  if |new_p - old_p| > 1 / 1000 then
    let diff := new_p - old_p
    let flags :=
      if diff > 0 then [numeric_flags.PRICE, numeric_flags.PRICE_RISE]
      else [numeric_flags.PRICE, numeric_flags.PRICE_CUT]
    changes ++
      [{ gtin := gtin, name := name, flags := flags, ptype := some pt,
         old_price := if old_p > 0 then some old_p else none,
         new_price := if new_p > 0 then some new_p else none,
         difference := some diff }]
  else changes

/-- The price-change records one entry of the new map contributes
(`foph_diff.rs:553`): `none` when its gtin is absent from the old map,
otherwise retail then exfactory compared by `priceChangeStep`. -/
def priceEntryChanges (old_pkg : PackageMap) (p : String × PackageInfo) :
    Option (List DiffRecord) :=
  (omFind p.1 old_pkg).map (fun old_info =>
    [("retail", old_info.retail_price, p.2.retail_price),
     ("exfactory", old_info.exfactory_price, p.2.exfactory_price)].foldl
      (priceChangeStep p.1 p.2.name) [])

/-- The price-change records (`foph_diff.rs:552`): per-entry lists over the
new map, flattened. -/
def price_changes (old_pkg new_pkg : PackageMap) : List DiffRecord :=
  (new_pkg.filterMap (priceEntryChanges old_pkg)).flatten

/-- The routing loop (`foph_diff.rs:590`): distribute each price-change
record into the four directional buckets by its `type` field and the sign
of its `difference` field. -/
def splitPriceChanges (changes : List DiffRecord) :
    List DiffRecord × List DiffRecord × List DiffRecord × List DiffRecord :=
  changes.foldl
    (fun st change =>
      let (ru, rd, eu, ed) := st
      let pt := change.ptype.getD ""
      let diff := change.difference.getD 0
      if pt = "retail" ∧ diff > 0 then (ru ++ [change], rd, eu, ed)
      else if pt = "retail" then (ru, rd ++ [change], eu, ed)
      else if pt = "exfactory" ∧ diff > 0 then (ru, rd, eu ++ [change], ed)
      else if pt = "exfactory" then (ru, rd, eu, ed ++ [change])
      else (ru, rd, eu, ed))
    ([], [], [], [])

/-- Category `retail_up`. -/
def retail_up (old_pkg new_pkg : PackageMap) : List DiffRecord :=
  (splitPriceChanges (price_changes old_pkg new_pkg)).1

/-- Category `retail_down`. -/
def retail_down (old_pkg new_pkg : PackageMap) : List DiffRecord :=
  (splitPriceChanges (price_changes old_pkg new_pkg)).2.1

/-- Category `exfactory_up`. -/
def exfactory_up (old_pkg new_pkg : PackageMap) : List DiffRecord :=
  (splitPriceChanges (price_changes old_pkg new_pkg)).2.2.1

/-- Category `exfactory_down`. -/
def exfactory_down (old_pkg new_pkg : PackageMap) : List DiffRecord :=
  (splitPriceChanges (price_changes old_pkg new_pkg)).2.2.2

-- ═══ Claim theorems ═════════════════════════════════════════════════════════

-- ── C4: point-in-time price resolution ──────────────────────────────────────

theorem getLast?_cons_isSome {α : Type} (y : α) (ys : List α) :
    ∃ p, (y :: ys).getLast? = some p := by
  induction ys generalizing y with
  | nil => exact ⟨y, rfl⟩
  | cons z zs ih =>
    obtain ⟨p, hp⟩ := ih z
    exact ⟨p, by rw [List.getLast?_cons_cons]; exact hp⟩

theorem gep_foldl_some (cur : DateTuple) (l : List (DateTuple × ℚ)) :
    ∀ (b : DateTuple) (q : ℚ), (l.map Prod.fst).Pairwise (· < ·) →
    (∀ k ∈ l.map Prod.fst, b < k) →
    l.foldl (gepStep cur) (some b, q) =
      (match (l.filter (fun p => decide (p.1 ≤ cur))).getLast? with
       | none => (some b, q)
       | some p => (some p.1, p.2)) := by
  induction l with
  | nil => intro b q _ _; simp
  | cons x rest ih =>
    intro b q hsorted hlb
    obtain ⟨d, v⟩ := x
    simp only [List.map_cons, List.pairwise_cons] at hsorted
    have hbd : b < d := hlb d (by simp)
    by_cases hd : d ≤ cur
    · have hstep : gepStep cur (some b, q) (d, v) = (some d, v) := by
        simp [gepStep, hd, hbd]
      rw [List.foldl_cons, hstep, ih d v hsorted.2 hsorted.1]
      have hfc : ((d, v) :: rest).filter (fun p => decide (p.1 ≤ cur)) =
          (d, v) :: rest.filter (fun p => decide (p.1 ≤ cur)) := by simp [hd]
      rw [hfc]
      cases hfr : rest.filter (fun p => decide (p.1 ≤ cur)) with
      | nil => simp
      | cons y ys =>
        obtain ⟨p, hp⟩ := getLast?_cons_isSome y ys
        rw [List.getLast?_cons_cons, hp]
    · have hstep : gepStep cur (some b, q) (d, v) = (some b, q) := by
        simp [gepStep, hd]
      rw [List.foldl_cons, hstep, ih b q hsorted.2 (fun k hk => hlb k (by simp [hk]))]
      have hfc : ((d, v) :: rest).filter (fun p => decide (p.1 ≤ cur)) =
          rest.filter (fun p => decide (p.1 ≤ cur)) := by simp [hd]
      rw [hfc]

/-- C4: for a (sorted, as built) price series and reference date, the
resolver returns the amount attached to the latest change date that is on
or before the reference date — the last entry of the series restricted to
dates ≤ the reference — and `0` when no entry qualifies (empty series or
all samples strictly after the reference date). -/
theorem C4_get_effective_price (prices : List (DateTuple × ℚ)) (cur : DateTuple)
    (hsorted : (prices.map Prod.fst).Pairwise (· < ·)) :
    (get_effective_price prices cur =
      (match (prices.filter (fun p => decide (p.1 ≤ cur))).getLast? with
       | none => 0
       | some p => p.2)) ∧
    ((∀ p ∈ prices, ¬ p.1 ≤ cur) → get_effective_price prices cur = 0) := by
  refine ⟨?_, ?_⟩
  · revert hsorted
    induction prices with
    | nil => intro _; simp [get_effective_price]
    | cons x rest ih =>
      intro hsorted
      obtain ⟨d, v⟩ := x
      simp only [List.map_cons, List.pairwise_cons] at hsorted
      by_cases hd : d ≤ cur
      · have hstep : gepStep cur (none, 0) (d, v) = (some d, v) := by
          simp [gepStep, hd]
        unfold get_effective_price
        rw [List.foldl_cons, hstep, gep_foldl_some cur rest d v hsorted.2 hsorted.1]
        have hfc : ((d, v) :: rest).filter (fun p => decide (p.1 ≤ cur)) =
            (d, v) :: rest.filter (fun p => decide (p.1 ≤ cur)) := by simp [hd]
        rw [hfc]
        cases hfr : rest.filter (fun p => decide (p.1 ≤ cur)) with
        | nil => simp
        | cons y ys =>
          obtain ⟨p, hp⟩ := getLast?_cons_isSome y ys
          rw [List.getLast?_cons_cons, hp]
      · have hstep : gepStep cur (none, 0) (d, v) = (none, 0) := by
          simp [gepStep, hd]
        unfold get_effective_price at ih ⊢
        rw [List.foldl_cons, hstep, ih hsorted.2]
        have hfc : ((d, v) :: rest).filter (fun p => decide (p.1 ≤ cur)) =
            rest.filter (fun p => decide (p.1 ≤ cur)) := by simp [hd]
        rw [hfc]
  · intro hall
    unfold get_effective_price
    have key : ∀ (l : List (DateTuple × ℚ)) (st : Option DateTuple × ℚ),
        (∀ p ∈ l, ¬ p.1 ≤ cur) → l.foldl (gepStep cur) st = st := by
      intro l
      induction l with
      | nil => intro st _; simp
      | cons x rest ih2 =>
        intro st h
        have hx : ¬ x.1 ≤ cur := h x (by simp)
        have hstep : gepStep cur st x = st := by
          match st with
          | (none, q) => simp [gepStep, hx]
          | (some b, q) => simp [gepStep, hx]
        rw [List.foldl_cons, hstep]
        exact ih2 st (fun p hp => h p (List.mem_cons_of_mem _ hp))
    rw [key prices (none, 0) hall]

theorem C4_get_effective_price_witness :
    get_effective_price [(⟨2024, 1, 1⟩, 10)] ⟨2024, 6, 1⟩ = 10 ∧
    get_effective_price [(⟨2024, 9, 9⟩, 7)] ⟨2024, 6, 1⟩ = 0 := by
  constructor
  · have h := C4_get_effective_price [(⟨2024, 1, 1⟩, 10)] ⟨2024, 6, 1⟩ (by simp)
    rw [h.1]; rfl
  · have h := C4_get_effective_price [(⟨2024, 9, 9⟩, 7)] ⟨2024, 6, 1⟩ (by simp)
    exact h.2 (by decide)

-- ── C9: `parse_date_str` panics on multi-byte input ─────────────────────────

/-- C9: the claim that `parse_date_str` never panics fails on the code: on
the 12-byte input "202€-01-01" byte index 4 falls inside the three-byte
character '€', so the slice `d[0..4]` panics (modelled by `Except.error`)
instead of returning `None` or `Some`. -/
theorem C9_parse_date_str_multibyte_panic :
    parse_date_str (String.data "202€-01-01") = Except.error () := by rfl

-- ── Association-list counting lemmas ────────────────────────────────────────

theorem omFind_none_iff {α β : Type} [DecidableEq α] (g : α) (l : List (α × β)) :
    omFind g l = none ↔ ∀ p ∈ l, p.1 ≠ g := by
  induction l with
  | nil => simp [omFind]
  | cons x rest ih =>
    obtain ⟨k, v⟩ := x
    by_cases hk : k = g
    · subst hk; simp [omFind]
    · simp [omFind, hk, ih]

theorem omFind_mem {α β : Type} [DecidableEq α] {g : α} {v : β}
    {l : List (α × β)} (h : omFind g l = some v) : (g, v) ∈ l := by
  induction l with
  | nil => simp [omFind] at h
  | cons x rest ih =>
    obtain ⟨k, w⟩ := x
    by_cases hk : k = g
    · subst hk
      have hkk : omFind k ((k, w) :: rest) = some w := by simp [omFind]
      rw [hkk] at h
      cases h
      exact List.mem_cons_self _ _
    · simp only [omFind, if_neg hk] at h
      exact List.mem_cons_of_mem _ (ih h)

theorem countP_key_zero {α β : Type} [DecidableEq α] {g : α}
    {l : List (α × β)} (h : omFind g l = none) :
    l.countP (fun p => decide (p.1 = g)) = 0 := by
  rw [List.countP_eq_zero]
  intro p hp
  simpa using (omFind_none_iff g l).mp h p hp

theorem countP_key_one {α β : Type} [DecidableEq α] {g : α} {v : β}
    {l : List (α × β)} (hnodup : (l.map Prod.fst).Nodup)
    (h : omFind g l = some v) :
    l.countP (fun p => decide (p.1 = g)) = 1 := by
  induction l with
  | nil => simp [omFind] at h
  | cons x rest ih =>
    obtain ⟨k, w⟩ := x
    simp only [List.map_cons, List.nodup_cons] at hnodup
    by_cases hk : k = g
    · subst hk
      rw [List.countP_cons_of_pos _ _ (by simp)]
      have hz : rest.countP (fun p => decide (p.1 = k)) = 0 := by
        rw [List.countP_eq_zero]
        intro p hp
        simp only [decide_eq_true_eq]
        intro hpk
        exact hnodup.1 (hpk ▸ List.mem_map_of_mem Prod.fst hp)
      omega
    · simp only [omFind, if_neg hk] at h
      rw [List.countP_cons_of_neg _ _ (by simp [hk])]
      exact ih hnodup.2 h

theorem countP_gtin_filterMap_zero {g : String}
    (l : List (String × PackageInfo)) (f : String × PackageInfo → Option DiffRecord)
    (hf : ∀ p r, f p = some r → r.gtin = p.1) (hg : ∀ p ∈ l, p.1 ≠ g) :
    (l.filterMap f).countP (fun r => decide (r.gtin = g)) = 0 := by
  rw [List.countP_eq_zero]
  intro r hr
  obtain ⟨p, hp, hfp⟩ := List.mem_filterMap.mp hr
  simp only [decide_eq_true_eq]
  rw [hf p r hfp]
  exact hg p hp

theorem countP_gtin_flatten_zero {g : String}
    (l : List (String × PackageInfo))
    (f : String × PackageInfo → Option (List DiffRecord))
    (hf : ∀ p L r, f p = some L → r ∈ L → r.gtin = p.1)
    (hg : ∀ p ∈ l, p.1 ≠ g) :
    ((l.filterMap f).flatten).countP (fun r => decide (r.gtin = g)) = 0 := by
  rw [List.countP_eq_zero]
  intro r hr
  obtain ⟨L, hL, hrL⟩ := List.mem_flatten.mp hr
  obtain ⟨p, hp, hfp⟩ := List.mem_filterMap.mp hL
  simp only [decide_eq_true_eq]
  rw [hf p L r hfp hrL]
  exact hg p hp

theorem countP_gtin_filtermap_key (l : List (String × PackageInfo))
    (f : String × PackageInfo → Bool) (mk : String × PackageInfo → DiffRecord)
    (hmk : ∀ p, (mk p).gtin = p.1) (g : String) :
    ((l.filter f).map mk).countP (fun r => decide (r.gtin = g)) =
      l.countP (fun p => decide (p.1 = g) && f p) := by
  induction l with
  | nil => simp
  | cons p rest ih =>
    rw [List.filter_cons]
    by_cases hf : f p = true
    · rw [if_pos hf, List.map_cons]
      by_cases hpg : p.1 = g
      · rw [List.countP_cons_of_pos _ _ (by simp [hmk, hpg]),
          List.countP_cons_of_pos _ _ (by simp [hpg, hf]), ih]
      · rw [List.countP_cons_of_neg _ _ (by simp [hmk, hpg]),
          List.countP_cons_of_neg _ _ (by simp [hpg]), ih]
    · rw [if_neg hf, List.countP_cons_of_neg _ _ (by simp [hf]), ih]

theorem priceChangeStep_mem {gt nm : String} {acc : List DiffRecord}
    {t : String × ℚ × ℚ} {r : DiffRecord}
    (h : r ∈ priceChangeStep gt nm acc t) : r ∈ acc ∨ r.gtin = gt := by
  obtain ⟨pt, op, np⟩ := t
  simp only [priceChangeStep] at h
  by_cases hc : |np - op| > 1 / 1000
  · rw [if_pos hc] at h
    rcases List.mem_append.mp h with h | h
    · exact Or.inl h
    · right; simp only [List.mem_singleton] at h; rw [h]
  · rw [if_neg hc] at h
    exact Or.inl h

theorem priceEntryChanges_gtin {old_pkg : PackageMap}
    {p : String × PackageInfo} {L : List DiffRecord} {r : DiffRecord}
    (h : priceEntryChanges old_pkg p = some L) (hr : r ∈ L) : r.gtin = p.1 := by
  simp only [priceEntryChanges] at h
  cases hfind : omFind p.1 old_pkg with
  | none => rw [hfind] at h; simp at h
  | some old_info =>
    rw [hfind] at h
    injection h with h
    subst h
    have key : ∀ (ts : List (String × ℚ × ℚ)) (acc : List DiffRecord),
        r ∈ ts.foldl (priceChangeStep p.1 p.2.name) acc → r ∈ acc ∨ r.gtin = p.1 := by
      intro ts
      induction ts with
      | nil => intro acc h2; exact Or.inl h2
      | cons t rest ih =>
        intro acc h2
        rcases ih _ h2 with h3 | h3
        · exact priceChangeStep_mem h3
        · exact Or.inr h3
    rcases key _ _ hr with h3 | h3
    · simp at h3
    · exact h3

theorem splitPriceChanges_eq (changes : List DiffRecord) :
    splitPriceChanges changes =
      (changes.filter (fun c => decide (c.ptype.getD "" = "retail" ∧ c.difference.getD 0 > 0)),
       changes.filter (fun c => decide (c.ptype.getD "" = "retail" ∧ ¬ c.difference.getD 0 > 0)),
       changes.filter (fun c => decide (c.ptype.getD "" = "exfactory" ∧ c.difference.getD 0 > 0)),
       changes.filter (fun c => decide (c.ptype.getD "" = "exfactory" ∧ ¬ c.difference.getD 0 > 0))) := by
  have go : ∀ (l : List DiffRecord) (ru rd eu ed : List DiffRecord),
      l.foldl
        (fun st change =>
          let (ru, rd, eu, ed) := st
          let pt := change.ptype.getD ""
          let diff := change.difference.getD 0
          if pt = "retail" ∧ diff > 0 then (ru ++ [change], rd, eu, ed)
          else if pt = "retail" then (ru, rd ++ [change], eu, ed)
          else if pt = "exfactory" ∧ diff > 0 then (ru, rd, eu ++ [change], ed)
          else if pt = "exfactory" then (ru, rd, eu, ed ++ [change])
          else (ru, rd, eu, ed))
        (ru, rd, eu, ed) =
      (ru ++ l.filter (fun c => decide (c.ptype.getD "" = "retail" ∧ c.difference.getD 0 > 0)),
       rd ++ l.filter (fun c => decide (c.ptype.getD "" = "retail" ∧ ¬ c.difference.getD 0 > 0)),
       eu ++ l.filter (fun c => decide (c.ptype.getD "" = "exfactory" ∧ c.difference.getD 0 > 0)),
       ed ++ l.filter (fun c => decide (c.ptype.getD "" = "exfactory" ∧ ¬ c.difference.getD 0 > 0))) := by
    intro l
    induction l with
    | nil => intro ru rd eu ed; simp
    | cons c rest ih =>
      intro ru rd eu ed
      rw [List.foldl_cons]
      by_cases h1 : c.ptype.getD "" = "retail" ∧ c.difference.getD 0 > 0
      · simp only [if_pos h1, ih]
        simp [List.filter_cons, h1, h1.1, h1.2]
      · by_cases h2 : c.ptype.getD "" = "retail"
        · simp only [if_neg h1, if_pos h2, ih]
          have hnd : ¬ c.difference.getD 0 > 0 := fun hd => h1 ⟨h2, hd⟩
          simp [List.filter_cons, h1, h2, hnd, not_lt.mp hnd]
        · by_cases h3 : c.ptype.getD "" = "exfactory" ∧ c.difference.getD 0 > 0
          · simp only [if_neg h1, if_neg h2, if_pos h3, ih]
            simp [List.filter_cons, h1, h2, h3, h3.1, h3.2]
          · by_cases h4 : c.ptype.getD "" = "exfactory"
            · simp only [if_neg h1, if_neg h2, if_neg h3, if_pos h4, ih]
              have hnd : ¬ c.difference.getD 0 > 0 := fun hd => h3 ⟨h4, hd⟩
              simp [List.filter_cons, h1, h2, h3, h4, hnd, not_lt.mp hnd]
            · simp only [if_neg h1, if_neg h2, if_neg h3, if_neg h4, ih]
              have hr : ¬ (c.ptype.getD "" = "retail" ∧ ¬ c.difference.getD 0 > 0) :=
                fun hc => h2 hc.1
              have he : ¬ (c.ptype.getD "" = "exfactory" ∧ ¬ c.difference.getD 0 > 0) :=
                fun hc => h4 hc.1
              simp [List.filter_cons, h1, h2, h3, h4, hr, he]
  unfold splitPriceChanges
  rw [go]
  simp

-- ── C6: a deleted gtin appears only in `del`, exactly once ──────────────────

/-- C6: a gtin present in the old map and absent from the new map produces
exactly one record in the `del` category and none in any of the other eight
categories. -/
theorem C6_deleted_gtin_only_del (old_pkg new_pkg : PackageMap) (g : String)
    (oi : PackageInfo)
    (hnodup : (old_pkg.map Prod.fst).Nodup)
    (hold : omFind g old_pkg = some oi)
    (hnew : omFind g new_pkg = none) :
    (package_deletions old_pkg new_pkg).countP (fun r => decide (r.gtin = g)) = 1 ∧
    (new_packages old_pkg new_pkg).countP (fun r => decide (r.gtin = g)) = 0 ∧
    (sl_entry_additions old_pkg new_pkg).countP (fun r => decide (r.gtin = g)) = 0 ∧
    (sl_entry_deletions old_pkg new_pkg).countP (fun r => decide (r.gtin = g)) = 0 ∧
    (name_changes old_pkg new_pkg).countP (fun r => decide (r.gtin = g)) = 0 ∧
    (retail_up old_pkg new_pkg).countP (fun r => decide (r.gtin = g)) = 0 ∧
    (retail_down old_pkg new_pkg).countP (fun r => decide (r.gtin = g)) = 0 ∧
    (exfactory_up old_pkg new_pkg).countP (fun r => decide (r.gtin = g)) = 0 ∧
    (exfactory_down old_pkg new_pkg).countP (fun r => decide (r.gtin = g)) = 0 := by
  have hgnew : ∀ p ∈ new_pkg, p.1 ≠ g := (omFind_none_iff g new_pkg).mp hnew
  have hpc : (price_changes old_pkg new_pkg).countP (fun r => decide (r.gtin = g)) = 0 := by
    unfold price_changes
    exact countP_gtin_flatten_zero new_pkg (priceEntryChanges old_pkg)
      (fun p L r h hr => priceEntryChanges_gtin h hr) hgnew
  have hbucket : ∀ q : DiffRecord → Bool,
      ((price_changes old_pkg new_pkg).filter q).countP (fun r => decide (r.gtin = g)) = 0 := by
    intro q
    have hsub := (List.filter_sublist (l := price_changes old_pkg new_pkg) (p := q)).countP_le
      (fun r => decide (r.gtin = g))
    omega
  refine ⟨?_, ?_, ?_, ?_, ?_, ?_, ?_, ?_, ?_⟩
  · unfold package_deletions
    rw [countP_gtin_filtermap_key _ _ _ (fun p => rfl) g]
    have hcong : old_pkg.countP
        (fun p => decide (p.1 = g) && !(omContains p.1 new_pkg)) =
        old_pkg.countP (fun p => decide (p.1 = g)) := by
      apply List.countP_congr
      intro p hp
      by_cases hpg : p.1 = g
      · simp [hpg, omContains, hnew]
      · simp [hpg]
    rw [hcong]
    exact countP_key_one hnodup hold
  · unfold new_packages
    rw [countP_gtin_filtermap_key _ _ _ (fun p => rfl) g]
    rw [List.countP_eq_zero]
    intro p hp
    simp [hgnew p hp]
  · unfold sl_entry_additions
    apply countP_gtin_filterMap_zero new_pkg _ _ hgnew
    intro p r h
    cases hfind : omFind p.1 old_pkg with
    | none => rw [hfind] at h; simp at h
    | some oi2 =>
      rw [hfind] at h
      simp only [Option.some_bind] at h
      by_cases hc : ¬ oi2.has_sl_entry ∧ p.2.has_sl_entry
      · rw [if_pos hc] at h
        cases h; rfl
      · rw [if_neg hc] at h; simp at h
  · unfold sl_entry_deletions
    apply countP_gtin_filterMap_zero new_pkg _ _ hgnew
    intro p r h
    cases hfind : omFind p.1 old_pkg with
    | none => rw [hfind] at h; simp at h
    | some oi2 =>
      rw [hfind] at h
      simp only [Option.some_bind] at h
      by_cases hc : oi2.has_sl_entry ∧ ¬ p.2.has_sl_entry
      · rw [if_pos hc] at h
        cases h; rfl
      · rw [if_neg hc] at h; simp at h
  · unfold name_changes
    apply countP_gtin_filterMap_zero new_pkg _ _ hgnew
    intro p r h
    cases hfind : omFind p.1 old_pkg with
    | none => rw [hfind] at h; simp at h
    | some oi2 =>
      rw [hfind] at h
      simp only [Option.some_bind] at h
      by_cases hc : oi2.name ≠ p.2.name
      · rw [if_pos hc] at h
        cases h; rfl
      · rw [if_neg hc] at h; simp at h
  · unfold retail_up
    rw [splitPriceChanges_eq]
    exact hbucket _
  · unfold retail_down
    rw [splitPriceChanges_eq]
    exact hbucket _
  · unfold exfactory_up
    rw [splitPriceChanges_eq]
    exact hbucket _
  · unfold exfactory_down
    rw [splitPriceChanges_eq]
    exact hbucket _

-- ── C5: price-change records ────────────────────────────────────────────────

theorem C6_deleted_gtin_only_del_witness :
    (package_deletions [("7680000000001", PackageInfo.mk "A" 10 0 true)] []).countP
        (fun r => decide (r.gtin = "7680000000001")) = 1 ∧
    (new_packages [("7680000000001", PackageInfo.mk "A" 10 0 true)] []).countP
        (fun r => decide (r.gtin = "7680000000001")) = 0 ∧
    (sl_entry_deletions [("7680000000001", PackageInfo.mk "A" 10 0 true)] []).countP
        (fun r => decide (r.gtin = "7680000000001")) = 0 := by
  have h := C6_deleted_gtin_only_del [("7680000000001", PackageInfo.mk "A" 10 0 true)] []
    "7680000000001" (PackageInfo.mk "A" 10 0 true) (by simp) (by rfl) (by rfl)
  exact ⟨h.1, h.2.1, h.2.2.2.1⟩

theorem filter_gtin_flatten_nil (old_pkg : PackageMap)
    (l : List (String × PackageInfo)) (g : String) (q : DiffRecord → Bool)
    (hq : ∀ r, q r = true → r.gtin = g) (hg : ∀ p ∈ l, p.1 ≠ g) :
    ((l.filterMap (priceEntryChanges old_pkg)).flatten).filter q = [] := by
  rw [List.filter_eq_nil_iff]
  intro r hr
  obtain ⟨L, hL, hrL⟩ := List.mem_flatten.mp hr
  obtain ⟨p, hp, hfp⟩ := List.mem_filterMap.mp hL
  intro hqr
  exact hg p hp ((priceEntryChanges_gtin hfp hrL).symm.trans (hq r hqr))

theorem filter_price_changes_eq (old_pkg : PackageMap)
    (new_pkg : List (String × PackageInfo)) (g : String) (ni : PackageInfo)
    (hnodup : (new_pkg.map Prod.fst).Nodup) (hfind : omFind g new_pkg = some ni)
    (q : DiffRecord → Bool) (hq : ∀ r, q r = true → r.gtin = g) :
    (price_changes old_pkg new_pkg).filter q =
      ((priceEntryChanges old_pkg (g, ni)).getD []).filter q := by
  induction new_pkg with
  | nil => simp [omFind] at hfind
  | cons x rest ih =>
    obtain ⟨k, v⟩ := x
    simp only [List.map_cons, List.nodup_cons] at hnodup
    by_cases hk : k = g
    · subst hk
      have hv : v = ni := by
        have hkk : omFind k ((k, v) :: rest) = some v := by simp [omFind]
        rw [hkk] at hfind; cases hfind; rfl
      subst hv
      have hrest : ∀ p ∈ rest, p.1 ≠ k := by
        intro p hp hpk
        exact hnodup.1 (hpk ▸ List.mem_map_of_mem Prod.fst hp)
      unfold price_changes
      cases hpec : priceEntryChanges old_pkg (k, v) with
      | none =>
        rw [List.filterMap_cons_none hpec,
          filter_gtin_flatten_nil old_pkg rest k q hq hrest]
        simp
      | some L =>
        rw [List.filterMap_cons_some hpec, List.flatten_cons, List.filter_append,
          filter_gtin_flatten_nil old_pkg rest k q hq hrest, List.append_nil]
        simp
    · have hfr : omFind g rest = some ni := by
        simp only [omFind, if_neg hk] at hfind; exact hfind
      unfold price_changes
      cases hpec : priceEntryChanges old_pkg (k, v) with
      | none =>
        rw [List.filterMap_cons_none hpec]
        exact ih hnodup.2 hfr
      | some L =>
        rw [List.filterMap_cons_some hpec, List.flatten_cons, List.filter_append]
        have hLnil : L.filter q = [] := by
          rw [List.filter_eq_nil_iff]
          intro r hrL hqr
          exact hk ((priceEntryChanges_gtin hpec hrL).symm.trans (hq r hqr))
        rw [hLnil, List.nil_append]
        exact ih hnodup.2 hfr

theorem priceRec_display (g nm : String) (pt : String) (op np : ℚ)
    (ho : 0 ≤ op) (hn : 0 ≤ np) :
    ({ gtin := g, name := nm,
       flags := if np - op > 0 then [numeric_flags.PRICE, numeric_flags.PRICE_RISE]
                else [numeric_flags.PRICE, numeric_flags.PRICE_CUT],
       ptype := some pt,
       old_price := if op > 0 then some op else none,
       new_price := if np > 0 then some np else none,
       difference := some (np - op) } : DiffRecord) =
    { gtin := g, name := nm,
      flags := if op < np then [11, 13] else [11, 15],
      ptype := some pt,
      old_price := if op = 0 then none else some op,
      new_price := if np = 0 then none else some np,
      difference := some (np - op) } := by
  have e1 : (np - op > 0) = (op < np) := propext sub_pos
  have e2 : (if op > 0 then some op else none) = (if op = 0 then none else some op) := by
    by_cases hx : op = 0
    · simp [hx]
    · simp [hx, lt_of_le_of_ne ho (Ne.symm hx)]
  have e3 : (if np > 0 then some np else none) = (if np = 0 then none else some np) := by
    by_cases hx : np = 0
    · simp [hx]
    · simp [hx, lt_of_le_of_ne hn (Ne.symm hx)]
  simp only [e1, e2, e3, numeric_flags.PRICE, numeric_flags.PRICE_RISE,
    numeric_flags.PRICE_CUT]

/-- C5: for a gtin in both maps and each price type independently, a record
appears in the price-change list exactly when the absolute delta exceeds
`0.001`; it carries flags `[11, 13]` when the price rose and `[11, 15]`
otherwise, `difference = new − old`, and a null (`none`) `old_price` /
`new_price` exactly when the corresponding resolved price is `0`. -/
theorem C5_price_change_records (old_pkg new_pkg : PackageMap) (g : String)
    (oi ni : PackageInfo)
    (hnodup : (new_pkg.map Prod.fst).Nodup)
    (hold : omFind g old_pkg = some oi) (hnew : omFind g new_pkg = some ni)
    (hro : 0 ≤ oi.retail_price) (hrn : 0 ≤ ni.retail_price)
    (heo : 0 ≤ oi.exfactory_price) (hen : 0 ≤ ni.exfactory_price) :
    ((price_changes old_pkg new_pkg).filter
        (fun r => decide (r.gtin = g ∧ r.ptype = some "retail")) =
      (if |ni.retail_price - oi.retail_price| > 1 / 1000 then
        [{ gtin := g, name := ni.name,
           flags := if oi.retail_price < ni.retail_price then [11, 13] else [11, 15],
           ptype := some "retail",
           old_price := if oi.retail_price = 0 then none else some oi.retail_price,
           new_price := if ni.retail_price = 0 then none else some ni.retail_price,
           difference := some (ni.retail_price - oi.retail_price) }]
      else [])) ∧
    ((price_changes old_pkg new_pkg).filter
        (fun r => decide (r.gtin = g ∧ r.ptype = some "exfactory")) =
      (if |ni.exfactory_price - oi.exfactory_price| > 1 / 1000 then
        [{ gtin := g, name := ni.name,
           flags := if oi.exfactory_price < ni.exfactory_price then [11, 13] else [11, 15],
           ptype := some "exfactory",
           old_price := if oi.exfactory_price = 0 then none else some oi.exfactory_price,
           new_price := if ni.exfactory_price = 0 then none else some ni.exfactory_price,
           difference := some (ni.exfactory_price - oi.exfactory_price) }]
      else [])) := by
  have hpec : (priceEntryChanges old_pkg (g, ni)).getD [] =
      priceChangeStep g ni.name
        (priceChangeStep g ni.name [] ("retail", oi.retail_price, ni.retail_price))
        ("exfactory", oi.exfactory_price, ni.exfactory_price) := by
    unfold priceEntryChanges
    rw [hold]
    rfl
  have hstepR : priceChangeStep g ni.name [] ("retail", oi.retail_price, ni.retail_price) =
      (if |ni.retail_price - oi.retail_price| > 1 / 1000 then
        [{ gtin := g, name := ni.name,
           flags := if ni.retail_price - oi.retail_price > 0
             then [numeric_flags.PRICE, numeric_flags.PRICE_RISE]
             else [numeric_flags.PRICE, numeric_flags.PRICE_CUT],
           ptype := some "retail",
           old_price := if oi.retail_price > 0 then some oi.retail_price else none,
           new_price := if ni.retail_price > 0 then some ni.retail_price else none,
           difference := some (ni.retail_price - oi.retail_price) }]
      else []) := by
    simp only [priceChangeStep, List.nil_append]
  have hstepE : ∀ X : List DiffRecord,
      priceChangeStep g ni.name X ("exfactory", oi.exfactory_price, ni.exfactory_price) =
      X ++ (if |ni.exfactory_price - oi.exfactory_price| > 1 / 1000 then
        [{ gtin := g, name := ni.name,
           flags := if ni.exfactory_price - oi.exfactory_price > 0
             then [numeric_flags.PRICE, numeric_flags.PRICE_RISE]
             else [numeric_flags.PRICE, numeric_flags.PRICE_CUT],
           ptype := some "exfactory",
           old_price := if oi.exfactory_price > 0 then some oi.exfactory_price else none,
           new_price := if ni.exfactory_price > 0 then some ni.exfactory_price else none,
           difference := some (ni.exfactory_price - oi.exfactory_price) }]
      else []) := by
    intro X
    by_cases hE : |ni.exfactory_price - oi.exfactory_price| > 1 / 1000
    · simp only [priceChangeStep, if_pos hE]
    · simp only [priceChangeStep, if_neg hE, List.append_nil]
  have hne1 : ("exfactory" : String) ≠ "retail" := by decide
  have hne2 : ("retail" : String) ≠ "exfactory" := by decide
  constructor
  · rw [filter_price_changes_eq old_pkg new_pkg g ni hnodup hnew _
      (fun r hr => (of_decide_eq_true hr).1), hpec, hstepR, hstepE, List.filter_append]
    by_cases hR : |ni.retail_price - oi.retail_price| > 1 / 1000 <;>
      by_cases hE : |ni.exfactory_price - oi.exfactory_price| > 1 / 1000
    · rw [if_pos hR, if_pos hE, if_pos hR,
        priceRec_display g ni.name "retail" oi.retail_price ni.retail_price hro hrn]
      simp [hne1]
    · rw [if_pos hR, if_neg hE, if_pos hR,
        priceRec_display g ni.name "retail" oi.retail_price ni.retail_price hro hrn]
      simp
    · rw [if_neg hR, if_pos hE, if_neg hR]
      simp [hne1]
    · rw [if_neg hR, if_neg hE, if_neg hR]
      simp
  · rw [filter_price_changes_eq old_pkg new_pkg g ni hnodup hnew _
      (fun r hr => (of_decide_eq_true hr).1), hpec, hstepR, hstepE, List.filter_append]
    by_cases hR : |ni.retail_price - oi.retail_price| > 1 / 1000 <;>
      by_cases hE : |ni.exfactory_price - oi.exfactory_price| > 1 / 1000
    · rw [if_pos hR, if_pos hE, if_pos hE,
        priceRec_display g ni.name "exfactory" oi.exfactory_price ni.exfactory_price heo hen]
      simp [hne2]
    · rw [if_pos hR, if_neg hE, if_neg hE]
      simp [hne2]
    · rw [if_neg hR, if_pos hE, if_pos hE,
        priceRec_display g ni.name "exfactory" oi.exfactory_price ni.exfactory_price heo hen]
      simp
    · rw [if_neg hR, if_neg hE, if_neg hE]
      simp

theorem C5_price_change_records_witness :
    (price_changes [("7680123456785", PackageInfo.mk "X" 10 5 true)]
        [("7680123456785", PackageInfo.mk "X" (10 + 9 / 10000) 7 true)]).filter
      (fun r => decide (r.gtin = "7680123456785" ∧ r.ptype = some "retail")) = [] ∧
    (price_changes [("7680123456785", PackageInfo.mk "X" 10 5 true)]
        [("7680123456785", PackageInfo.mk "X" (10 + 9 / 10000) 7 true)]).filter
      (fun r => decide (r.gtin = "7680123456785" ∧ r.ptype = some "exfactory")) =
      [{ gtin := "7680123456785", name := "X", flags := [11, 13],
         ptype := some "exfactory", old_price := some 5, new_price := some 7,
         difference := some 2 }] := by
  have h := C5_price_change_records
    [("7680123456785", PackageInfo.mk "X" 10 5 true)]
    [("7680123456785", PackageInfo.mk "X" (10 + 9 / 10000) 7 true)]
    "7680123456785" (PackageInfo.mk "X" 10 5 true)
    (PackageInfo.mk "X" (10 + 9 / 10000) 7 true)
    (by simp) rfl rfl (by norm_num) (by norm_num) (by norm_num) (by norm_num)
  constructor
  · rw [h.1, if_neg (by norm_num [not_lt, abs_le])]
  · rw [h.2, if_pos (by norm_num [abs_of_nonneg])]
    norm_num

-- ── C1: the SL-loss-with-no-price scenario ──────────────────────────────────

/-- The old snapshot input of the claimed scenario: one product with gtin
`7680123456785`, name "Drug A", a retail price sample of 10 dated before the
reference date, and a matching reimbursement-list authorization. -/
def oldBundleC1 : Json :=
  .obj [("resourceType", .str "Bundle"), ("entry", .arr [
    .obj [("resource", .obj [
      ("resourceType", .str "PackagedProductDefinition"),
      ("id", .str "p1"),
      ("description", .str "Drug A"),
      ("packaging", .obj [("identifier", .arr [
        .obj [("system", .str "urn:oid:2.51.1.1"), ("value", .str "7680123456785")]])])])],
    .obj [("resource", .obj [
      ("resourceType", .str "RegulatedAuthorization"),
      ("id", .str "a1"),
      ("type", .obj [("coding", .arr [.obj [("code", .str "756000002003")]])]),
      ("subject", .arr [.obj [("reference", .str "PackagedProductDefinition/p1")]]),
      ("extension", .arr [
        .obj [("url", .str "http://example.org/productPrice"),
              ("extension", .arr [
                .obj [("url", .str "type"),
                      ("valueCodeableConcept", .obj [("coding", .arr [
                        .obj [("code", .str "756002005001")]])])],
                .obj [("url", .str "value"),
                      ("valueMoney", .obj [("value", .num 10)])],
                .obj [("url", .str "changeDate"),
                      ("valueDate", .str "2024-01-01")]])]])])]])]

/-- The new snapshot input of the claimed scenario: the same product with no
reimbursement-list authorization and no price samples at all. -/
def newBundleC1 : Json :=
  .obj [("resourceType", .str "Bundle"), ("entry", .arr [
    .obj [("resource", .obj [
      ("resourceType", .str "PackagedProductDefinition"),
      ("id", .str "p1"),
      ("description", .str "Drug A"),
      ("packaging", .obj [("identifier", .arr [
        .obj [("system", .str "urn:oid:2.51.1.1"), ("value", .str "7680123456785")]])])])]])]

/-- The reference date of the scenario. -/
def refDateC1 : DateTuple := ⟨2024, 6, 1⟩

/-- The old `PackageMap` extracted from the scenario's old input. -/
def oldSnapC1 : PackageMap := (process_bundles [oldBundleC1] refDateC1).toOption.getD []

/-- The new `PackageMap` extracted from the scenario's new input. -/
def newSnapC1 : PackageMap := (process_bundles [newBundleC1] refDateC1).toOption.getD []

/-- C1, counterexample: on the claimed scenario the code does NOT emit an
`sl_entry_delete` record while keeping the gtin out of `del`: the new-side
product fails the retention rule (no SL entry, no resolvable price), so
the gtin vanishes from the new map and is classified as a deletion. -/
theorem C1_scenario_counterexample :
    ¬ ((sl_entry_deletions oldSnapC1 newSnapC1).countP
          (fun r => decide (r.gtin = "7680123456785")) = 1 ∧
       (package_deletions oldSnapC1 newSnapC1).countP
          (fun r => decide (r.gtin = "7680123456785")) = 0 ∧
       (new_packages oldSnapC1 newSnapC1).countP
          (fun r => decide (r.gtin = "7680123456785")) = 0) := by
  decide

/-- C1, amended: on that scenario the extraction drops the product from the
new snapshot (retention fails), and the diff emits exactly one `del` record
for the gtin, no `sl_entry_delete` record and no `new` record. -/
theorem C1_scenario_amended :
    process_bundles [oldBundleC1] refDateC1 =
      .ok [("7680123456785", PackageInfo.mk "Drug A" 10 0 true)] ∧
    process_bundles [newBundleC1] refDateC1 = .ok [] ∧
    (package_deletions oldSnapC1 newSnapC1).countP
      (fun r => decide (r.gtin = "7680123456785")) = 1 ∧
    (sl_entry_deletions oldSnapC1 newSnapC1).countP
      (fun r => decide (r.gtin = "7680123456785")) = 0 ∧
    (new_packages oldSnapC1 newSnapC1).countP
      (fun r => decide (r.gtin = "7680123456785")) = 0 := by
  refine ⟨by decide, by decide, by decide, by decide, by decide⟩

-- ── Extraction correspondence: the map is the fold of the insert list ───────

theorem findSome_gtin_check {g : String} : ∀ {ids : List Json},
    ids.findSome? (fun id =>
      if ((id.get? "system").bind Json.asStr).getD "" = "urn:oid:2.51.1.1" ∧
          rustStrLen (((id.get? "value").bind Json.asStr).getD "") = 13 ∧
          rustStartsWith (((id.get? "value").bind Json.asStr).getD "") "7680" then
        some (((id.get? "value").bind Json.asStr).getD "")
      else none) = some g →
    rustStrLen g = 13 ∧ rustStartsWith g "7680" = true := by
  intro ids
  induction ids with
  | nil => intro h; simp at h
  | cons i rest ih =>
    intro h
    rw [List.findSome?_cons] at h
    revert h
    by_cases hc : (((i.get? "system").bind Json.asStr).getD "" = "urn:oid:2.51.1.1" ∧
        rustStrLen (((i.get? "value").bind Json.asStr).getD "") = 13 ∧
        rustStartsWith (((i.get? "value").bind Json.asStr).getD "") "7680" = true)
    · rw [if_pos hc]
      intro h
      cases h
      exact ⟨hc.2.1, hc.2.2⟩
    · rw [if_neg hc]
      intro h
      exact ih h

theorem extractGtin_check {res : Json} {g : String}
    (h : extractGtin res = some g) :
    rustStrLen g = 13 ∧ rustStartsWith g "7680" = true := by
  unfold extractGtin at h
  cases harr : (((res.get? "packaging").bind (·.get? "identifier")).bind Json.asArr) with
  | none => rw [harr] at h; simp at h
  | some ids =>
    rw [harr] at h
    simp only [Option.some_bind] at h
    exact findSome_gtin_check h

/-- The record one product contributes, characterized: it is retained with
gtin `g` and record `info` exactly when its GTIN extraction yields `g`, the
authorization scan succeeds, the retention condition (positive resolved
retail or exfactory price, or an SL entry) holds, and `info` is built from
the extracted name, the two resolved prices and the SL flag. -/
theorem ppdRecord_ok_some_iff (cur : DateTuple)
    (resources : List (String × Json)) (kr : String × Json) (g : String)
    (info : PackageInfo) :
    ppdRecord cur resources kr = .ok (some (g, info)) ↔
      extractGtin kr.2 = some g ∧
      ∃ pbt sl, authScan resources kr.1 = .ok (pbt, sl) ∧
        (0 < get_effective_price (omFindD "retail" pbt []) cur ∨
         0 < get_effective_price (omFindD "exfactory" pbt []) cur ∨ sl = true) ∧
        info = ⟨extractName kr.2, get_effective_price (omFindD "retail" pbt []) cur,
                get_effective_price (omFindD "exfactory" pbt []) cur, sl⟩ := by
  unfold ppdRecord
  cases hg : extractGtin kr.2 with
  | none => simp
  | some gtin =>
    cases hscan : authScan resources kr.1 with
    | error e =>
      cases e
      simp
    | ok st =>
      obtain ⟨pbt, sl⟩ := st
      dsimp only
      by_cases hret : get_effective_price (omFindD "retail" pbt []) cur > 0 ∨
          get_effective_price (omFindD "exfactory" pbt []) cur > 0 ∨ sl = true
      · rw [if_pos hret]
        constructor
        · intro h
          cases h
          exact ⟨rfl, pbt, sl, rfl, hret, rfl⟩
        · rintro ⟨hgg, pbt2, sl2, hscan2, hret2, hinfo⟩
          cases hgg
          cases hscan2
          rw [hinfo]
      · rw [if_neg hret]
        constructor
        · intro h; simp at h
        · rintro ⟨hgg, pbt2, sl2, hscan2, hret2, hinfo⟩
          cases hgg
          cases hscan2
          exact absurd hret2 hret

theorem ppdRecord_gtin_check {cur : DateTuple} {resources : List (String × Json)}
    {kr : String × Json} {g : String} {info : PackageInfo}
    (h : ppdRecord cur resources kr = .ok (some (g, info))) :
    rustStrLen g = 13 ∧ rustStartsWith g "7680" = true := by
  exact extractGtin_check ((ppdRecord_ok_some_iff cur resources kr g info).mp h).1

theorem foldE_ppd_inserts (cur : DateTuple) (resources : List (String × Json)) :
    ∀ (ppds : List (String × Json)) (acc : List (String × PackageInfo))
      (base packages : PackageMap), packages = acc.foldl insStep base →
    foldE (processPpd cur resources) packages ppds =
      (foldE (recStep cur resources) acc ppds).map (fun l => l.foldl insStep base) := by
  intro ppds
  induction ppds with
  | nil =>
    intro acc base packages hp
    simp [foldE_nil, Except.map, hp]
  | cons kr rest ih =>
    intro acc base packages hp
    rw [foldE_cons, foldE_cons]
    unfold processPpd recStep
    cases hrec : ppdRecord cur resources kr with
    | error e => cases e; rfl
    | ok o =>
      cases o with
      | none => exact ih acc base packages hp
      | some p =>
        apply ih (acc ++ [p]) base
        rw [List.foldl_append, ← hp]
        rfl

theorem processBundle_inserts (cur : DateTuple) (bundle : Json)
    (packages : PackageMap) :
    processBundle cur packages bundle =
      (bundleInserts cur bundle).map (fun l => l.foldl insStep packages) := by
  unfold processBundle bundleInserts
  cases bundleEntries bundle with
  | none => rfl
  | some entries =>
    exact foldE_ppd_inserts cur (buildResources entries) (ppdList (buildResources entries))
      [] packages packages rfl

theorem foldE_bundles_inserts (cur : DateTuple) :
    ∀ (bundles : List Json) (acc : List (String × PackageInfo))
      (packages : PackageMap), packages = acc.foldl insStep [] →
    foldE (processBundle cur) packages bundles =
      (foldE (allStep cur) acc bundles).map (fun l => l.foldl insStep []) := by
  intro bundles
  induction bundles with
  | nil =>
    intro acc packages hp
    simp [foldE_nil, Except.map, hp]
  | cons b rest ih =>
    intro acc packages hp
    rw [foldE_cons, foldE_cons]
    unfold allStep
    rw [processBundle_inserts cur b packages]
    cases hbi : bundleInserts cur b with
    | error e => cases e; rfl
    | ok lb =>
      simp only [Except.map]
      apply ih (acc ++ lb)
      rw [List.foldl_append, ← hp]

theorem process_bundles_inserts (bundles : List Json) (cur : DateTuple) :
    process_bundles bundles cur =
      (allInserts bundles cur).map (fun l => l.foldl insStep []) := by
  unfold process_bundles allInserts
  exact foldE_bundles_inserts cur bundles [] [] rfl

theorem foldE_allStep_each (cur : DateTuple) :
    ∀ (bundles : List Json) (acc ins : List (String × PackageInfo)),
    foldE (allStep cur) acc bundles = .ok ins →
    ∀ b ∈ bundles, ∃ lb, bundleInserts cur b = .ok lb := by
  intro bundles
  induction bundles with
  | nil => intro acc ins _ b hb; simp at hb
  | cons b0 rest ih =>
    intro acc ins h b hb
    rw [foldE_cons] at h
    unfold allStep at h
    cases hbi : bundleInserts cur b0 with
    | error e => rw [hbi] at h; cases e; simp at h
    | ok lb0 =>
      rw [hbi] at h
      rcases List.mem_cons.mp hb with rfl | hb2
      · exact ⟨lb0, hbi⟩
      · exact ih (acc ++ lb0) ins h b hb2

theorem foldE_allStep_mem (cur : DateTuple) :
    ∀ (bundles : List Json) (acc ins : List (String × PackageInfo)),
    foldE (allStep cur) acc bundles = .ok ins →
    ∀ p, p ∈ ins ↔ p ∈ acc ∨
      ∃ b ∈ bundles, ∃ lb, bundleInserts cur b = .ok lb ∧ p ∈ lb := by
  intro bundles
  induction bundles with
  | nil =>
    intro acc ins h p
    rw [foldE_nil] at h
    cases h
    simp
  | cons b0 rest ih =>
    intro acc ins h p
    rw [foldE_cons] at h
    unfold allStep at h
    cases hbi : bundleInserts cur b0 with
    | error e => rw [hbi] at h; cases e; simp at h
    | ok lb0 =>
      rw [hbi] at h
      rw [ih (acc ++ lb0) ins h p]
      constructor
      · rintro (hm | ⟨b, hb, lb, hlb, hp⟩)
        · rcases List.mem_append.mp hm with hm | hm
          · exact Or.inl hm
          · exact Or.inr ⟨b0, by simp, lb0, hbi, hm⟩
        · exact Or.inr ⟨b, List.mem_cons_of_mem _ hb, lb, hlb, hp⟩
      · rintro (hm | ⟨b, hb, lb, hlb, hp⟩)
        · exact Or.inl (List.mem_append.mpr (Or.inl hm))
        · rcases List.mem_cons.mp hb with rfl | hb2
          · rw [hbi] at hlb
            cases hlb
            exact Or.inl (List.mem_append.mpr (Or.inr hp))
          · exact Or.inr ⟨b, hb2, lb, hlb, hp⟩

theorem foldE_recStep_mem (cur : DateTuple) (resources : List (String × Json)) :
    ∀ (ppds : List (String × Json)) (acc lb : List (String × PackageInfo)),
    foldE (recStep cur resources) acc ppds = .ok lb →
    ∀ p, p ∈ lb ↔ p ∈ acc ∨
      ∃ kr ∈ ppds, ppdRecord cur resources kr = .ok (some p) := by
  intro ppds
  induction ppds with
  | nil =>
    intro acc lb h p
    rw [foldE_nil] at h
    cases h
    simp
  | cons kr0 rest ih =>
    intro acc lb h p
    rw [foldE_cons] at h
    unfold recStep at h
    cases hrec : ppdRecord cur resources kr0 with
    | error e => rw [hrec] at h; cases e; simp at h
    | ok o =>
      rw [hrec] at h
      cases o with
      | none =>
        rw [ih acc lb h p]
        constructor
        · rintro (hm | ⟨kr, hkr, hp⟩)
          · exact Or.inl hm
          · exact Or.inr ⟨kr, List.mem_cons_of_mem _ hkr, hp⟩
        · rintro (hm | ⟨kr, hkr, hp⟩)
          · exact Or.inl hm
          · rcases List.mem_cons.mp hkr with rfl | hkr2
            · rw [hrec] at hp; simp at hp
            · exact Or.inr ⟨kr, hkr2, hp⟩
      | some q =>
        rw [ih (acc ++ [q]) lb h p]
        constructor
        · rintro (hm | ⟨kr, hkr, hp⟩)
          · rcases List.mem_append.mp hm with hm | hm
            · exact Or.inl hm
            · simp only [List.mem_singleton] at hm
              subst hm
              exact Or.inr ⟨kr0, by simp, hrec⟩
          · exact Or.inr ⟨kr, List.mem_cons_of_mem _ hkr, hp⟩
        · rintro (hm | ⟨kr, hkr, hp⟩)
          · exact Or.inl (List.mem_append.mpr (Or.inl hm))
          · rcases List.mem_cons.mp hkr with rfl | hkr2
            · rw [hrec] at hp
              cases hp
              exact Or.inl (List.mem_append.mpr (Or.inr (by simp)))
            · exact Or.inr ⟨kr, hkr2, hp⟩

theorem bundleInserts_mem (cur : DateTuple) (b : Json)
    (lb : List (String × PackageInfo)) (h : bundleInserts cur b = .ok lb) :
    ∀ p, p ∈ lb ↔
      ∃ kr ∈ ppdCandidates b, ppdRecord cur (bundleResources b) kr = .ok (some p) := by
  intro p
  unfold bundleInserts at h
  unfold ppdCandidates bundleResources
  cases hbe : bundleEntries b with
  | none =>
    rw [hbe] at h
    cases h
    simp [ppdList]
  | some entries =>
    rw [hbe] at h
    rw [foldE_recStep_mem cur (buildResources entries) (ppdList (buildResources entries)) [] lb h p]
    simp

theorem fold_insert_mem_keys (g : String) :
    ∀ (ins : List (String × PackageInfo)) (start : PackageMap),
    g ∈ (ins.foldl insStep start).map Prod.fst ↔
      (∃ p ∈ ins, p.1 = g) ∨ g ∈ start.map Prod.fst := by
  intro ins
  induction ins with
  | nil => intro start; simp
  | cons p rest ih =>
    intro start
    rw [List.foldl_cons, ih (insStep start p)]
    unfold insStep
    rw [mem_keys_omInsert]
    constructor
    · rintro (⟨q, hq, hqg⟩ | hg | hg)
      · exact Or.inl ⟨q, List.mem_cons_of_mem _ hq, hqg⟩
      · exact Or.inl ⟨p, by simp, hg.symm⟩
      · exact Or.inr hg
    · rintro (⟨q, hq, hqg⟩ | hg)
      · rcases List.mem_cons.mp hq with rfl | hq2
        · exact Or.inr (Or.inl hqg.symm)
        · exact Or.inl ⟨q, hq2, hqg⟩
      · exact Or.inr (Or.inr hg)

theorem fold_insert_find (g : String) :
    ∀ (ins : List (String × PackageInfo)) (start : PackageMap),
    omFind g (ins.foldl insStep start) =
      match (ins.filter (fun p => decide (p.1 = g))).getLast? with
      | some p => some p.2
      | none => omFind g start := by
  intro ins
  induction ins using List.reverseRecOn with
  | nil => intro start; simp
  | append_singleton l p ih =>
    intro start
    rw [List.foldl_append, List.foldl_cons, List.foldl_nil]
    have hstep : insStep (List.foldl insStep start l) p =
        omInsert strLtB p.1 p.2 (List.foldl insStep start l) := rfl
    by_cases hpg : p.1 = g
    · rw [hstep, hpg, omFind_insert_self]
      have hfc : (l ++ [p]).filter (fun p => decide (p.1 = g)) =
          l.filter (fun p => decide (p.1 = g)) ++ [p] := by
        rw [List.filter_append]
        simp [hpg]
      rw [hfc, List.getLast?_concat]
    · rw [hstep, omFind_insert_ne _ _ _ _ _ (fun hc => hpg hc.symm)]
      have hfc : (l ++ [p]).filter (fun p => decide (p.1 = g)) =
          l.filter (fun p => decide (p.1 = g)) := by
        rw [List.filter_append]
        simp [hpg]
      rw [hfc, ih]

-- ── Properties of the string comparator ─────────────────────────────────────

theorem charListLt_irrefl : ∀ l : List Char, charListLt l l = false := by
  intro l
  induction l with
  | nil => rfl
  | cons a as ih => simp [charListLt, ih]

theorem charListLt_trans : ∀ a b c : List Char,
    charListLt a b = true → charListLt b c = true → charListLt a c = true := by
  intro a
  induction a with
  | nil =>
    intro b c hab hbc
    cases b with
    | nil => simp [charListLt] at hab
    | cons y ys =>
      cases c with
      | nil => simp [charListLt] at hbc
      | cons z zs => simp [charListLt]
  | cons x xs ih =>
    intro b c hab hbc
    cases b with
    | nil => simp [charListLt] at hab
    | cons y ys =>
      cases c with
      | nil => simp [charListLt] at hbc
      | cons z zs =>
        simp only [charListLt, Bool.or_eq_true, Bool.and_eq_true,
          decide_eq_true_eq] at hab hbc ⊢
        rcases hab with hab | ⟨hab1, hab2⟩
        · rcases hbc with hbc | ⟨hbc1, hbc2⟩
          · exact Or.inl (lt_trans hab hbc)
          · exact Or.inl (hbc1 ▸ hab)
        · rcases hbc with hbc | ⟨hbc1, hbc2⟩
          · exact Or.inl (hab1 ▸ hbc)
          · exact Or.inr ⟨hab1.trans hbc1, ih ys zs hab2 hbc2⟩

theorem charListLt_total : ∀ a b : List Char,
    charListLt a b = false → a ≠ b → charListLt b a = true := by
  intro a
  induction a with
  | nil =>
    intro b hab hne
    cases b with
    | nil => exact absurd rfl hne
    | cons y ys => simp [charListLt] at hab
  | cons x xs ih =>
    intro b hab hne
    cases b with
    | nil => simp [charListLt]
    | cons y ys =>
      by_cases hxy : x = y
      · subst hxy
        have h2 : charListLt xs ys = false := by
          simpa [charListLt] using hab
        have hys : xs ≠ ys := fun hc => hne (by rw [hc])
        simp [charListLt, ih ys h2 hys]
      · have hnlt : ¬ x < y := by
          intro hlt
          simp [charListLt, hlt] at hab
        rcases lt_or_gt_of_ne hxy with hlt | hgt
        · exact absurd hlt hnlt
        · simp [charListLt, hgt]

theorem strLtB_irrefl (s : String) : strLtB s s = false :=
  charListLt_irrefl s.data

theorem strLtB_total (a b : String) (hab : strLtB a b = false) (hne : a ≠ b) :
    strLtB b a = true :=
  charListLt_total a.data b.data hab (fun hd => hne (String.ext hd))

theorem pairwise_keys_omInsert_blt {α β : Type} [DecidableEq α]
    (lt : α → α → Bool)
    (htrans : ∀ a b c, lt a b = true → lt b c = true → lt a c = true)
    (htotal : ∀ a b, lt a b = false → a ≠ b → lt b a = true)
    (k : α) (v : β) (l : List (α × β))
    (h : (l.map Prod.fst).Pairwise (fun a b => lt a b = true)) :
    ((omInsert lt k v l).map Prod.fst).Pairwise (fun a b => lt a b = true) := by
  induction l with
  | nil => simp [omInsert]
  | cons p rest ih =>
    obtain ⟨k', v'⟩ := p
    simp only [List.map_cons, List.pairwise_cons] at h
    by_cases h1 : lt k k' = true
    · simp only [omInsert, if_pos h1, List.map_cons]
      refine List.Pairwise.cons ?_ (List.Pairwise.cons h.1 h.2)
      intro b hb
      rcases List.mem_cons.mp hb with hb | hb
      · rw [hb]; exact h1
      · exact htrans _ _ _ h1 (h.1 b hb)
    · by_cases h2 : k = k'
      · subst h2
        simp only [omInsert, if_neg h1, if_pos rfl, List.map_cons]
        exact List.Pairwise.cons h.1 h.2
      · simp only [omInsert, if_neg h1, if_neg h2, List.map_cons]
        refine List.Pairwise.cons ?_ (ih h.2)
        intro b hb
        rw [mem_keys_omInsert] at hb
        rcases hb with hb | hb
        · rw [hb]
          have h1f : lt k k' = false := by
            revert h1; cases hl : lt k k' <;> simp
          exact htotal k k' h1f h2
        · exact h.1 b hb

theorem fold_insert_pairwise :
    ∀ (ins : List (String × PackageInfo)) (start : PackageMap),
    ((start.map Prod.fst).Pairwise (fun a b => strLtB a b = true)) →
    (((ins.foldl insStep start).map Prod.fst).Pairwise (fun a b => strLtB a b = true)) := by
  intro ins
  induction ins with
  | nil => intro start h; exact h
  | cons p rest ih =>
    intro start h
    rw [List.foldl_cons]
    exact ih (insStep start p)
      (pairwise_keys_omInsert_blt strLtB
        (fun a b c => charListLt_trans a.data b.data c.data)
        strLtB_total p.1 p.2 start h)

theorem fold_insert_nodup (ins : List (String × PackageInfo)) :
    ((ins.foldl insStep []).map Prod.fst).Nodup := by
  have hp := fold_insert_pairwise ins [] (by simp)
  exact hp.imp (fun hab => by
    intro hc
    rw [hc] at hab
    rw [strLtB_irrefl] at hab
    exact Bool.false_ne_true hab)

-- ── C2: shape of surviving gtin keys ────────────────────────────────────────

/-- C2 (amended): every gtin key of a produced snapshot has UTF-8 byte
length 13 and byte prefix "7680" — the code checks `len() == 13` and
`starts_with("7680")` only; it never checks that the characters are
decimal digits. -/
theorem C2_gtin_byte_shape (bundles : List Json) (cur : DateTuple)
    (m : PackageMap) (hok : process_bundles bundles cur = .ok m) :
    ∀ k ∈ m.map Prod.fst, rustStrLen k = 13 ∧ rustStartsWith k "7680" = true := by
  intro k hk
  rw [process_bundles_inserts] at hok
  cases hins : allInserts bundles cur with
  | error e => rw [hins] at hok; cases e; simp [Except.map] at hok
  | ok ins =>
    rw [hins] at hok
    simp only [Except.map] at hok
    injection hok with hok
    subst hok
    rw [fold_insert_mem_keys] at hk
    rcases hk with ⟨p, hp, hpk⟩ | hk
    · have hmem := (foldE_allStep_mem cur bundles [] ins hins p).mp hp
      rcases hmem with hmem | ⟨b, hb, lb, hlb, hplb⟩
      · simp at hmem
      · obtain ⟨kr, hkr, hrec⟩ := (bundleInserts_mem cur b lb hlb p).mp hplb
        obtain ⟨g0, info0⟩ := p
        cases hpk
        exact ppdRecord_gtin_check hrec
    · simp at hk

/-- The C2 counterexample input: a product whose identifier value
"7680abcdefghi" is 13 ASCII characters starting with "7680" but is not all
decimal digits, retained through its reimbursement-list authorization. -/
def cexBundleC2 : Json :=
  .obj [("resourceType", .str "Bundle"), ("entry", .arr [
    .obj [("resource", .obj [
      ("resourceType", .str "PackagedProductDefinition"),
      ("id", .str "p1"),
      ("description", .str "Z"),
      ("packaging", .obj [("identifier", .arr [
        .obj [("system", .str "urn:oid:2.51.1.1"), ("value", .str "7680abcdefghi")]])])])],
    .obj [("resource", .obj [
      ("resourceType", .str "RegulatedAuthorization"),
      ("id", .str "a1"),
      ("type", .obj [("coding", .arr [.obj [("code", .str "756000002003")]])]),
      ("subject", .arr [.obj [("reference", .str "PackagedProductDefinition/p1")]])])]])]

/-- C2, counterexample: the produced snapshot keeps the key
"7680abcdefghi", whose characters are not all decimal digits — the claim's
"all 13 characters are decimal digits" fails on the code. -/
theorem C2_counterexample :
    process_bundles [cexBundleC2] ⟨2024, 1, 1⟩ =
      .ok [("7680abcdefghi", PackageInfo.mk "Z" 0 0 true)] ∧
    ("7680abcdefghi".data.all Char.isDigit) = false := by
  exact ⟨by decide, by decide⟩

theorem C2_gtin_byte_shape_witness :
    rustStrLen "7680abcdefghi" = 13 ∧ rustStartsWith "7680abcdefghi" "7680" = true :=
  C2_gtin_byte_shape [cexBundleC2] ⟨2024, 1, 1⟩
    [("7680abcdefghi", PackageInfo.mk "Z" 0 0 true)] (by decide)
    "7680abcdefghi" (by decide)

-- ── C3: retention condition ─────────────────────────────────────────────────

/-- C3: a gtin appears in the produced snapshot exactly when some product
of some bundle extracts that gtin and satisfies the retention condition —
resolved retail price > 0, or resolved exfactory price > 0, or a
reimbursement-list entry. -/
theorem C3_retention_iff (bundles : List Json) (cur : DateTuple)
    (m : PackageMap) (g : String) (hok : process_bundles bundles cur = .ok m) :
    (g ∈ m.map Prod.fst ↔
      ∃ b ∈ bundles, ∃ kr ∈ ppdCandidates b, extractGtin kr.2 = some g ∧
        ∃ pbt sl, authScan (bundleResources b) kr.1 = .ok (pbt, sl) ∧
          (0 < get_effective_price (omFindD "retail" pbt []) cur ∨
           0 < get_effective_price (omFindD "exfactory" pbt []) cur ∨ sl = true)) := by
  rw [process_bundles_inserts] at hok
  cases hins : allInserts bundles cur with
  | error e => rw [hins] at hok; cases e; simp [Except.map] at hok
  | ok ins =>
    rw [hins] at hok
    simp only [Except.map] at hok
    injection hok with hok
    subst hok
    rw [fold_insert_mem_keys]
    constructor
    · rintro (⟨p, hp, hpk⟩ | hk)
      · have hmem := (foldE_allStep_mem cur bundles [] ins hins p).mp hp
        rcases hmem with hmem | ⟨b, hb, lb, hlb, hplb⟩
        · simp at hmem
        · obtain ⟨kr, hkr, hrec⟩ := (bundleInserts_mem cur b lb hlb p).mp hplb
          obtain ⟨g0, info0⟩ := p
          cases hpk
          obtain ⟨hg, pbt, sl, hscan, hret, _⟩ :=
            (ppdRecord_ok_some_iff cur (bundleResources b) kr g0 info0).mp hrec
          exact ⟨b, hb, kr, hkr, hg, pbt, sl, hscan, hret⟩
      · simp at hk
    · rintro ⟨b, hb, kr, hkr, hg, pbt, sl, hscan, hret⟩
      left
      refine ⟨(g, ⟨extractName kr.2, get_effective_price (omFindD "retail" pbt []) cur,
        get_effective_price (omFindD "exfactory" pbt []) cur, sl⟩), ?_, rfl⟩
      have hrec := (ppdRecord_ok_some_iff cur (bundleResources b) kr g
        ⟨extractName kr.2, get_effective_price (omFindD "retail" pbt []) cur,
         get_effective_price (omFindD "exfactory" pbt []) cur, sl⟩).mpr
        ⟨hg, pbt, sl, hscan, hret, rfl⟩
      obtain ⟨lb, hlb⟩ := foldE_allStep_each cur bundles [] ins hins b hb
      have hplb := (bundleInserts_mem cur b lb hlb _).mpr ⟨kr, hkr, hrec⟩
      exact (foldE_allStep_mem cur bundles [] ins hins _).mpr
        (Or.inr ⟨b, hb, lb, hlb, hplb⟩)

theorem C3_retention_iff_witness :
    "7680123456785" ∈ (oldSnapC1.map Prod.fst) ∧
    (∃ b ∈ [oldBundleC1], ∃ kr ∈ ppdCandidates b,
      extractGtin kr.2 = some "7680123456785" ∧
      ∃ pbt sl, authScan (bundleResources b) kr.1 = .ok (pbt, sl) ∧
        (0 < get_effective_price (omFindD "retail" pbt []) refDateC1 ∨
         0 < get_effective_price (omFindD "exfactory" pbt []) refDateC1 ∨ sl = true)) := by
  refine ⟨by decide, ?_⟩
  exact (C3_retention_iff [oldBundleC1] refDateC1 oldSnapC1 "7680123456785"
    (by decide)).mp (by decide)

-- ── C10: last-write-wins inside a single pass ───────────────────────────────

/-- C10: within one `process_bundles` call, if at least one product with
gtin `g` is retained, the resulting map holds exactly one entry for `g`,
namely the record of the last retained product with that gtin in processing
order — last-write-wins already applies inside one pass. -/
theorem C10_last_write_wins (bundles : List Json) (cur : DateTuple)
    (m : PackageMap) (ins : List (String × PackageInfo)) (g : String)
    (hok : process_bundles bundles cur = .ok m)
    (hins : allInserts bundles cur = .ok ins)
    (hne : ins.filter (fun p => decide (p.1 = g)) ≠ []) :
    m.countP (fun p => decide (p.1 = g)) = 1 ∧
    omFind g m = ((ins.filter (fun p => decide (p.1 = g))).getLast?).map Prod.snd := by
  rw [process_bundles_inserts, hins] at hok
  simp only [Except.map] at hok
  injection hok with hok
  subst hok
  have hfind := fold_insert_find g ins []
  cases hfl : ins.filter (fun p => decide (p.1 = g)) with
  | nil => exact absurd hfl hne
  | cons q qs =>
    obtain ⟨p, hp⟩ := getLast?_cons_isSome q qs
    rw [hfl, hp] at hfind
    dsimp only at hfind
    constructor
    · exact countP_key_one (fold_insert_nodup ins) hfind
    · rw [hfind, hp]
      rfl

/-- The C10 witness input: one bundle with two distinct products that both
resolve to the same gtin and are both retained via SL authorizations; the
later-processed one carries the name "Second". -/
def c10Bundle : Json :=
  .obj [("resourceType", .str "Bundle"), ("entry", .arr [
    .obj [("resource", .obj [
      ("resourceType", .str "PackagedProductDefinition"),
      ("id", .str "p1"),
      ("description", .str "First"),
      ("packaging", .obj [("identifier", .arr [
        .obj [("system", .str "urn:oid:2.51.1.1"), ("value", .str "7680111111116")]])])])],
    .obj [("resource", .obj [
      ("resourceType", .str "PackagedProductDefinition"),
      ("id", .str "p2"),
      ("description", .str "Second"),
      ("packaging", .obj [("identifier", .arr [
        .obj [("system", .str "urn:oid:2.51.1.1"), ("value", .str "7680111111116")]])])])],
    .obj [("resource", .obj [
      ("resourceType", .str "RegulatedAuthorization"),
      ("id", .str "a1"),
      ("type", .obj [("coding", .arr [.obj [("code", .str "756000002003")]])]),
      ("subject", .arr [.obj [("reference", .str "PackagedProductDefinition/p1")]])])],
    .obj [("resource", .obj [
      ("resourceType", .str "RegulatedAuthorization"),
      ("id", .str "a2"),
      ("type", .obj [("coding", .arr [.obj [("code", .str "756000002003")]])]),
      ("subject", .arr [.obj [("reference", .str "PackagedProductDefinition/p2")]])])]])]

/-- The reference date for the C10 witness. -/
def c10Date : DateTuple := ⟨2024, 1, 1⟩

/-- The snapshot extracted from the C10 witness bundle. -/
def c10Snap : PackageMap := (process_bundles [c10Bundle] c10Date).toOption.getD []

/-- The insert sequence of the C10 witness bundle. -/
def c10Ins : List (String × PackageInfo) :=
  (allInserts [c10Bundle] c10Date).toOption.getD []

theorem C10_last_write_wins_witness :
    c10Snap.countP (fun p => decide (p.1 = "7680111111116")) = 1 ∧
    omFind "7680111111116" c10Snap = some (PackageInfo.mk "Second" 0 0 true) := by
  have h := C10_last_write_wins [c10Bundle] c10Date c10Snap c10Ins "7680111111116"
    (by decide) (by decide) (by decide)
  refine ⟨h.1, ?_⟩
  rw [h.2]
  decide

-- ── C8: loader error behavior ───────────────────────────────────────────────

/-- C8: for any JSON parser and content, the loader fails exactly when both
passes yield zero bundles; the fallback pass is consulted only when the
primary pass yields zero bundles (a nonempty primary result is returned
as-is); and a successful result is always a nonempty bundle list. -/
theorem C8_loader_error_iff (P : List Char → Option Json) (content : List Char) :
    ((∃ e, read_foph_bundles P content = .error e) ↔
      (linePass P content).isEmpty = true ∧ (bracePass P content).isEmpty = true) ∧
    ((linePass P content).isEmpty = false →
      read_foph_bundles P content = .ok (linePass P content)) ∧
    ((linePass P content).isEmpty = true →
      (bracePass P content).isEmpty = false →
      read_foph_bundles P content = .ok (bracePass P content)) ∧
    (∀ bs, read_foph_bundles P content = .ok bs → bs.isEmpty = false) := by
  have hne : ∀ l : List Json, l.isEmpty = false → l ≠ [] := by
    intro l h hc
    rw [hc] at h
    simp at h
  have hread : read_foph_bundles P content =
      (if (linePass P content).isEmpty = true then
        (if (bracePass P content).isEmpty = true then
          Except.error "No valid FHIR Bundles"
         else Except.ok (bracePass P content))
       else Except.ok (linePass P content)) := by
    unfold read_foph_bundles
    cases hl : (linePass P content).isEmpty with
    | true => dsimp only; rw [hl]; simp
    | false => dsimp only; rw [hl]; simp [hne _ hl]
  rw [hread]
  cases hl : (linePass P content).isEmpty with
  | true =>
    cases hb : (bracePass P content).isEmpty with
    | true => simp [hl, hb]
    | false => simp [hl, hb, hne _ hb]
  | false => simp [hl, hne _ hl]

/-- A toy parser for the C8 witness: recognizes the single line "B" as a
bundle document. -/
def toyParse : List Char → Option Json := fun l =>
  if l = "B".data then some (.obj [("resourceType", .str "Bundle")]) else none

theorem C8_loader_error_iff_witness :
    (∃ e, read_foph_bundles toyParse "x".data = .error e) ∧
    read_foph_bundles toyParse "B".data = .ok (linePass toyParse "B".data) := by
  refine ⟨(C8_loader_error_iff toyParse "x".data).1.mpr ⟨?_, ?_⟩,
    (C8_loader_error_iff toyParse "B".data).2.1 ?_⟩
  · decide
  · decide
  · decide

-- ── C7: effective-date resolution ───────────────────────────────────────────

theorem dtLtB_iff (a b : DateTuple) : dtLtB a b = true ↔ a < b := by
  simp [dtLtB]

/-- The parse outcome for one bundle's timestamp: `error` is the panic,
`ok none` an absent or unparseable timestamp, `ok (some d)` a parsed date. -/
def bundleDate (b : Json) : Except Unit (Option DateTuple) :=
  match bundleTimestamp b with
  | none => .ok none
  | some ts => parse_date_str ts.data

/-- The dates of the bundles whose timestamps parse. -/
def parsedDates (bundles : List Json) : List DateTuple :=
  bundles.filterMap (fun b => (bundleDate b).toOption.bind id)

theorem tallyStep_eq (counts : List (DateTuple × Nat)) (b : Json) :
    tallyStep counts b =
      match bundleDate b with
      | .error () => .error ()
      | .ok none => .ok counts
      | .ok (some dt) => .ok (bumpCount dt counts) := by
  unfold tallyStep bundleDate
  cases bundleTimestamp b with
  | none => rfl
  | some ts => rfl

theorem mem_omInsert {α β : Type} (lt : α → α → Bool) [DecidableEq α]
    {k : α} {v : β} {l : List (α × β)} {p : α × β}
    (h : p ∈ omInsert lt k v l) : p = (k, v) ∨ p ∈ l := by
  induction l with
  | nil => simpa [omInsert] using h
  | cons q rest ih =>
    obtain ⟨k', v'⟩ := q
    by_cases h1 : lt k k' = true
    · simp only [omInsert, if_pos h1] at h
      rcases List.mem_cons.mp h with h | h
      · exact Or.inl h
      · exact Or.inr h
    · by_cases h2 : k = k'
      · simp only [omInsert, if_neg h1, if_pos h2] at h
        rcases List.mem_cons.mp h with h | h
        · exact Or.inl h
        · exact Or.inr (List.mem_cons_of_mem _ h)
      · simp only [omInsert, if_neg h1, if_neg h2] at h
        rcases List.mem_cons.mp h with h | h
        · exact Or.inr (h ▸ List.mem_cons_self _ _)
        · rcases ih h with h | h
          · exact Or.inl h
          · exact Or.inr (List.mem_cons_of_mem _ h)

theorem foldE_tally_safe (bundles : List Json) :
    ∀ (acc : List (DateTuple × Nat)),
    (∀ b ∈ bundles, bundleDate b ≠ .error ()) →
    ∃ t, foldE tallyStep acc bundles = .ok t := by
  induction bundles with
  | nil => intro acc _; exact ⟨acc, rfl⟩
  | cons b rest ih =>
    intro acc hsafe
    rw [foldE_cons, tallyStep_eq]
    cases hbd : bundleDate b with
    | error e => exact absurd (by cases e; exact hbd) (hsafe b (by simp))
    | ok o =>
      cases o with
      | none => exact ih acc (fun b2 hb2 => hsafe b2 (List.mem_cons_of_mem _ hb2))
      | some dt =>
        exact ih (bumpCount dt acc) (fun b2 hb2 => hsafe b2 (List.mem_cons_of_mem _ hb2))

theorem foldE_tally_find (bundles : List Json) :
    ∀ (acc t : List (DateTuple × Nat)),
    foldE tallyStep acc bundles = .ok t →
    ∀ d, omFindD d t 0 = omFindD d acc 0 + (parsedDates bundles).count d := by
  induction bundles with
  | nil =>
    intro acc t h d
    rw [foldE_nil] at h
    cases h
    simp [parsedDates]
  | cons b rest ih =>
    intro acc t h d
    rw [foldE_cons, tallyStep_eq] at h
    cases hbd : bundleDate b with
    | error e => cases e; rw [hbd] at h; simp at h
    | ok o =>
      rw [hbd] at h
      cases o with
      | none =>
        have hpd : parsedDates (b :: rest) = parsedDates rest := by
          unfold parsedDates
          rw [List.filterMap_cons]
          simp [hbd, Except.toOption]
        rw [hpd]
        exact ih acc t h d
      | some dt =>
        have hpd : parsedDates (b :: rest) = dt :: parsedDates rest := by
          unfold parsedDates
          rw [List.filterMap_cons]
          simp [hbd, Except.toOption]
        rw [hpd]
        rw [ih (bumpCount dt acc) t h d]
        by_cases hd : d = dt
        · subst hd
          have hb1 : omFindD d (bumpCount d acc) 0 = omFindD d acc 0 + 1 := by
            unfold bumpCount omFindD
            rw [omFind_insert_self]
            rfl
          rw [hb1, List.count_cons_self]
          omega
        · have hb1 : omFindD d (bumpCount dt acc) 0 = omFindD d acc 0 := by
            unfold bumpCount omFindD
            rw [omFind_insert_ne _ _ _ _ _ hd]
          rw [hb1, List.count_cons_of_ne hd]

theorem foldE_tally_pos (bundles : List Json) :
    ∀ (acc t : List (DateTuple × Nat)),
    foldE tallyStep acc bundles = .ok t →
    (∀ p ∈ acc, 0 < p.2) → ∀ p ∈ t, 0 < p.2 := by
  induction bundles with
  | nil =>
    intro acc t h hacc
    rw [foldE_nil] at h
    cases h
    exact hacc
  | cons b rest ih =>
    intro acc t h hacc
    rw [foldE_cons, tallyStep_eq] at h
    cases hbd : bundleDate b with
    | error e => cases e; rw [hbd] at h; simp at h
    | ok o =>
      rw [hbd] at h
      cases o with
      | none => exact ih acc t h hacc
      | some dt =>
        refine ih (bumpCount dt acc) t h ?_
        intro p hp
        rcases mem_omInsert dtLtB hp with hp | hp
        · rw [hp]
          simp
        · exact hacc p hp

theorem foldE_tally_pairwise (bundles : List Json) :
    ∀ (acc t : List (DateTuple × Nat)),
    foldE tallyStep acc bundles = .ok t →
    (acc.map Prod.fst).Pairwise (· < ·) → (t.map Prod.fst).Pairwise (· < ·) := by
  induction bundles with
  | nil =>
    intro acc t h hacc
    rw [foldE_nil] at h
    cases h
    exact hacc
  | cons b rest ih =>
    intro acc t h hacc
    rw [foldE_cons, tallyStep_eq] at h
    cases hbd : bundleDate b with
    | error e => cases e; rw [hbd] at h; simp at h
    | ok o =>
      rw [hbd] at h
      cases o with
      | none => exact ih acc t h hacc
      | some dt =>
        refine ih (bumpCount dt acc) t h ?_
        unfold bumpCount
        exact pairwise_keys_omInsert dtLtB dtLtB_iff dt _ acc hacc

theorem omFind_of_mem_pairwise {α β : Type} [LinearOrder α] [DecidableEq α]
    {l : List (α × β)} {k : α} {v : β}
    (hsorted : (l.map Prod.fst).Pairwise (· < ·)) (hmem : (k, v) ∈ l) :
    omFind k l = some v := by
  induction l with
  | nil => simp at hmem
  | cons p rest ih =>
    obtain ⟨k', v'⟩ := p
    simp only [List.map_cons, List.pairwise_cons] at hsorted
    rcases List.mem_cons.mp hmem with hmem | hmem
    · cases hmem
      simp [omFind]
    · have hk : k' < k := hsorted.1 k (List.mem_map_of_mem Prod.fst hmem)
      have hne : k' ≠ k := ne_of_lt hk
      simp only [omFind, if_neg hne]
      exact ih hsorted.2 hmem

theorem omFind_eq_none_of_pos {α : Type} [DecidableEq α]
    (l : List (α × Nat)) (k : α) (hpos : ∀ p ∈ l, 0 < p.2)
    (hz : omFindD k l 0 = 0) : omFind k l = none := by
  cases hf : omFind k l with
  | none => rfl
  | some c =>
    have hmem := omFind_mem hf
    have := hpos _ hmem
    unfold omFindD at hz
    rw [hf] at hz
    simp at hz
    omega

theorem sorted_assoc_ext {α β : Type} [LinearOrder α] [DecidableEq α] :
    ∀ (l1 l2 : List (α × β)),
    (l1.map Prod.fst).Pairwise (· < ·) → (l2.map Prod.fst).Pairwise (· < ·) →
    (∀ k, omFind k l1 = omFind k l2) → l1 = l2 := by
  intro l1
  induction l1 with
  | nil =>
    intro l2 _ h2 hfind
    cases l2 with
    | nil => rfl
    | cons p rest =>
      obtain ⟨k2, v2⟩ := p
      have := hfind k2
      simp [omFind] at this
  | cons p rest1 ih =>
    intro l2 h1 h2 hfind
    obtain ⟨k1, v1⟩ := p
    cases l2 with
    | nil =>
      have := hfind k1
      simp [omFind] at this
    | cons q rest2 =>
      obtain ⟨k2, v2⟩ := q
      simp only [List.map_cons, List.pairwise_cons] at h1 h2
      have hf1 : omFind k1 ((k1, v1) :: rest1) = some v1 := by simp [omFind]
      have hf2 : omFind k2 ((k2, v2) :: rest2) = some v2 := by simp [omFind]
      have hkk : k1 = k2 := by
        by_contra hne
        have hm1 : (k1, v1) ∈ (k2, v2) :: rest2 := omFind_mem (by rw [← hfind k1]; exact hf1)
        have hm2 : (k2, v2) ∈ (k1, v1) :: rest1 := omFind_mem (by rw [hfind k2]; exact hf2)
        rcases List.mem_cons.mp hm1 with hm1 | hm1
        · exact hne (congrArg Prod.fst hm1)
        · have h21 : k2 < k1 := h2.1 k1 (List.mem_map_of_mem Prod.fst hm1)
          rcases List.mem_cons.mp hm2 with hm2 | hm2
          · exact hne (congrArg Prod.fst hm2).symm
          · have h12 : k1 < k2 := h1.1 k2 (List.mem_map_of_mem Prod.fst hm2)
            exact absurd (lt_trans h12 h21) (lt_irrefl k1)
      subst hkk
      have hvv : v1 = v2 := by
        have := hfind k1
        rw [hf1, hf2] at this
        cases this
        rfl
      subst hvv
      have hrest : ∀ k, omFind k rest1 = omFind k rest2 := by
        intro k
        by_cases hk : k = k1
        · subst hk
          have hn1 : omFind k rest1 = none :=
            (omFind_none_iff k rest1).mpr
              (fun p hp hpk =>
                absurd (hpk ▸ h1.1 p.1 (List.mem_map_of_mem Prod.fst hp)) (lt_irrefl k))
          have hn2 : omFind k rest2 = none :=
            (omFind_none_iff k rest2).mpr
              (fun p hp hpk =>
                absurd (hpk ▸ h2.1 p.1 (List.mem_map_of_mem Prod.fst hp)) (lt_irrefl k))
          rw [hn1, hn2]
        · have := hfind k
          have hne1 : k1 ≠ k := fun hc => hk hc.symm
          simp only [omFind, if_neg hne1] at this
          exact this
      rw [ih rest2 h1.2 h2.2 hrest]

theorem maxStep_go (l : List (DateTuple × Nat)) :
    ∀ (b : DateTuple × Nat),
    (((b :: l).map Prod.fst).Pairwise (· < ·)) →
    ∃ r, l.foldl maxStep (some b) = some r ∧ (r = b ∨ r ∈ l) ∧ b.2 ≤ r.2 ∧
      (∀ x ∈ l, x.2 ≤ r.2) ∧
      (∀ x, (x = b ∨ x ∈ l) → x.2 = r.2 → x.1 ≤ r.1) := by
  induction l with
  | nil =>
    intro b _
    refine ⟨b, rfl, Or.inl rfl, le_refl _, by simp, ?_⟩
    rintro x (rfl | hx) _
    · exact le_refl _
    · simp at hx
  | cons x xs ih =>
    intro b hsorted
    have hsx : ((x :: xs).map Prod.fst).Pairwise (· < ·) := by
      simp only [List.map_cons, List.pairwise_cons] at hsorted ⊢
      exact hsorted.2
    have hbx : b.1 < x.1 := by
      simp only [List.map_cons, List.pairwise_cons] at hsorted
      exact hsorted.1 x.1 (by simp)
    have hbxs : ∀ y ∈ xs, b.1 < y.1 := by
      simp only [List.map_cons, List.pairwise_cons] at hsorted
      intro y hy
      exact hsorted.1 y.1 (by simp [List.mem_map_of_mem Prod.fst hy])
    rw [List.foldl_cons]
    by_cases hle : b.2 ≤ x.2
    · have hstep : maxStep (some b) x = some x := by simp [maxStep, hle]
      rw [hstep]
      obtain ⟨r, hr, hrmem, hxr, hall, htie⟩ := ih x hsx
      refine ⟨r, hr, ?_, le_trans hle hxr, ?_, ?_⟩
      · rcases hrmem with hrm | hrm
        · exact Or.inr (hrm ▸ List.mem_cons_self _ _)
        · exact Or.inr (List.mem_cons_of_mem _ hrm)
      · intro y hy
        rcases List.mem_cons.mp hy with rfl | hy2
        · exact hxr
        · exact hall y hy2
      · rintro y (rfl | hy) hy2
        · have hyr : y.1 < r.1 := by
            rcases hrmem with hrm | hrm
            · exact hrm ▸ hbx
            · exact hbxs r hrm
          exact le_of_lt hyr
        · rcases List.mem_cons.mp hy with rfl | hy3
          · exact htie y (Or.inl rfl) hy2
          · exact htie y (Or.inr hy3) hy2
    · have hstep : maxStep (some b) x = some b := by simp [maxStep, hle]
      rw [hstep]
      have hsb : ((b :: xs).map Prod.fst).Pairwise (· < ·) := by
        simp only [List.map_cons, List.pairwise_cons] at hsorted ⊢
        refine ⟨fun a ha => hsorted.1 a (List.mem_cons_of_mem _ ha), hsorted.2.2⟩
      obtain ⟨r, hr, hrmem, hbr, hall, htie⟩ := ih b hsb
      have hxlt : x.2 < b.2 := Nat.lt_of_not_le hle
      refine ⟨r, hr, ?_, hbr, ?_, ?_⟩
      · rcases hrmem with hrm | hrm
        · exact Or.inl hrm
        · exact Or.inr (List.mem_cons_of_mem _ hrm)
      · intro y hy
        rcases List.mem_cons.mp hy with rfl | hy2
        · exact le_trans (le_of_lt hxlt) hbr
        · exact hall y hy2
      · rintro y hmem hy2
        rcases hmem with rfl | hy
        · exact htie y (Or.inl rfl) hy2
        · rcases List.mem_cons.mp hy with rfl | hy3
          · exact absurd hy2 (by omega)
          · exact htie y (Or.inr hy3) hy2

theorem foldE_tally_ok_safe (bundles : List Json) :
    ∀ (acc t : List (DateTuple × Nat)),
    foldE tallyStep acc bundles = .ok t →
    ∀ b ∈ bundles, bundleDate b ≠ .error () := by
  induction bundles with
  | nil => intro acc t _ b hb; simp at hb
  | cons b0 rest ih =>
    intro acc t h b hb
    rw [foldE_cons, tallyStep_eq] at h
    cases hbd : bundleDate b0 with
    | error e => cases e; rw [hbd] at h; simp at h
    | ok o =>
      rw [hbd] at h
      rcases List.mem_cons.mp hb with rfl | hb2
      · rw [hbd]; simp
      · cases o with
        | none => exact ih acc t h b hb2
        | some dt => exact ih (bumpCount dt acc) t h b hb2

/-- C7: when at least one bundle timestamp parses (the tally is nonempty)
and no timestamp panics, the resolver returns a date of maximal frequency
among the parsed bundle dates; ties are broken towards the greatest date
tuple, and the result is invariant under permuting the input bundles. -/
theorem C7_effective_date (bundles : List Json) (fallback : DateTuple)
    (t : List (DateTuple × Nat)) (htally : tallyDates bundles = .ok t)
    (hne : t ≠ []) :
    ∃ d, extract_date_from_bundles bundles fallback = .ok d ∧
      0 < (parsedDates bundles).count d ∧
      (∀ d2, (parsedDates bundles).count d2 ≤ (parsedDates bundles).count d) ∧
      (∀ d2, (parsedDates bundles).count d2 = (parsedDates bundles).count d → d2 ≤ d) ∧
      (∀ bundles2, bundles.Perm bundles2 →
        extract_date_from_bundles bundles2 fallback = .ok d) := by
  have hsort := foldE_tally_pairwise bundles [] t htally (by simp)
  have hpos := foldE_tally_pos bundles [] t htally (by simp)
  have hcount : ∀ d2, (parsedDates bundles).count d2 = omFindD d2 t 0 := by
    intro d2
    have h := foldE_tally_find bundles [] t htally d2
    rw [h]
    simp [omFindD, omFind]
  cases t with
  | nil => exact absurd rfl hne
  | cons q qs =>
    have hfold : maxByCount (q :: qs) = List.foldl maxStep (some q) qs := by
      unfold maxByCount
      rw [List.foldl_cons]
      rfl
    obtain ⟨r, hr, hrmem, hqr, hall, htie⟩ := maxStep_go qs q hsort
    have hmax : maxByCount (q :: qs) = some r := by rw [hfold, hr]
    have hrin : r ∈ q :: qs := by
      rcases hrmem with h | h
      · exact h ▸ List.mem_cons_self _ _
      · exact List.mem_cons_of_mem _ h
    have hall2 : ∀ x ∈ q :: qs, x.2 ≤ r.2 := by
      intro x hx
      rcases List.mem_cons.mp hx with rfl | hx2
      · exact hqr
      · exact hall x hx2
    have hrfind : omFind r.1 (q :: qs) = some r.2 := by
      obtain ⟨r1, r2⟩ := r
      exact omFind_of_mem_pairwise hsort hrin
    have hcd : (parsedDates bundles).count r.1 = r.2 := by
      rw [hcount, omFindD, hrfind]
      rfl
    have hposr : 0 < r.2 := hpos r hrin
    have hext : ∀ (bs : List Json) (t2 : List (DateTuple × Nat)),
        tallyDates bs = .ok t2 → t2 = q :: qs →
        extract_date_from_bundles bs fallback = .ok r.1 := by
      intro bs t2 ht2 heq
      subst heq
      unfold extract_date_from_bundles
      rw [show tallyDates bs = Except.ok (q :: qs) from ht2]
      dsimp only
      rw [if_neg (by simp)]
      rw [hmax]
    refine ⟨r.1, hext bundles (q :: qs) htally rfl, ?_, ?_, ?_, ?_⟩
    · rw [hcd]; exact hposr
    · intro d2
      rw [hcount d2, hcd]
      cases hf : omFind d2 (q :: qs) with
      | none => simp [omFindD, hf]
      | some c =>
        have hm := omFind_mem hf
        have := hall2 _ hm
        simp only [omFindD, hf, Option.getD_some]
        exact this
    · intro d2 heq
      rw [hcount d2, hcd] at heq
      cases hf : omFind d2 (q :: qs) with
      | none =>
        rw [omFindD, hf] at heq
        simp at heq
        omega
      | some c =>
        rw [omFindD, hf] at heq
        simp at heq
        subst heq
        have hm := omFind_mem hf
        exact htie (d2, r.2) (by
          rcases List.mem_cons.mp hm with h | h
          · exact Or.inl h
          · exact Or.inr h) rfl
    · intro bundles2 hperm
      have hsafe2 : ∀ b ∈ bundles2, bundleDate b ≠ .error () := by
        intro b hb
        exact foldE_tally_ok_safe bundles [] (q :: qs) htally b (hperm.mem_iff.mpr hb)
      obtain ⟨t2, ht2⟩ := foldE_tally_safe bundles2 [] hsafe2
      have hsort2 := foldE_tally_pairwise bundles2 [] t2 ht2 (by simp)
      have hpos2 := foldE_tally_pos bundles2 [] t2 ht2 (by simp)
      have hcount2 : ∀ k, (parsedDates bundles2).count k = omFindD k t2 0 := by
        intro k
        have h := foldE_tally_find bundles2 [] t2 ht2 k
        rw [h]
        simp [omFindD, omFind]
      have hpdperm : (parsedDates bundles).Perm (parsedDates bundles2) := by
        unfold parsedDates
        exact hperm.filterMap _
      have hfind_eq : ∀ k, omFind k t2 = omFind k (q :: qs) := by
        intro k
        have e1 : omFindD k t2 0 = omFindD k (q :: qs) 0 := by
          rw [← hcount2, ← hcount, hpdperm.count_eq]
        cases h2 : omFind k t2 with
        | none =>
          cases h1 : omFind k (q :: qs) with
          | none => rfl
          | some c =>
            have := hpos _ (omFind_mem h1)
            rw [omFindD, omFindD, h1, h2] at e1
            simp at e1
            omega
        | some c2 =>
          cases h1 : omFind k (q :: qs) with
          | none =>
            have := hpos2 _ (omFind_mem h2)
            rw [omFindD, omFindD, h1, h2] at e1
            simp at e1
            omega
          | some c1 =>
            rw [omFindD, omFindD, h1, h2] at e1
            simp at e1
            rw [e1]
      have ht2eq : t2 = q :: qs := sorted_assoc_ext t2 (q :: qs) hsort2 hsort hfind_eq
      exact hext bundles2 t2 ht2 ht2eq

/-- A C7 witness bundle dated 2024-05-01. -/
def c7b1 : Json :=
  .obj [("resourceType", .str "Bundle"), ("timestamp", .str "2024-05-01T10:00:00Z")]

/-- A C7 witness bundle dated 2024-06-01. -/
def c7b2 : Json :=
  .obj [("resourceType", .str "Bundle"), ("timestamp", .str "2024-06-01T10:00:00Z")]

theorem C7_effective_date_witness :
    extract_date_from_bundles [c7b2, c7b1] ⟨2000, 1, 1⟩ = .ok ⟨2024, 6, 1⟩ := by
  obtain ⟨d, h1, _, _, _, h5⟩ := C7_effective_date [c7b1, c7b2] ⟨2000, 1, 1⟩
    [(⟨2024, 5, 1⟩, 1), (⟨2024, 6, 1⟩, 1)] (by decide) (by decide)
  have h1c : extract_date_from_bundles [c7b1, c7b2] ⟨2000, 1, 1⟩ = .ok ⟨2024, 6, 1⟩ := by
    decide
  rw [h1] at h1c
  injection h1c with h1c
  rw [← h1c]
  exact h5 [c7b2, c7b1] (List.Perm.swap c7b2 c7b1 [])

end FophDiff
